import Mathlib

/-!
Verification development for a repository containing two C++ binary tree
implementations: a plain binary search tree (`BinarySearchTree.cpp`) and a
self-balancing AVL-style tree (`SelfBalancingBinaryTree.cpp`).

Each C++ `Node*` structure (a nullable pointer to a node owning its two
children) is embedded as an inductive type: `leaf` stands for the null
pointer and `node` for an owned node.  Keys are C++ `int`; they are only
ever compared (never subjected to arithmetic), so they are embedded as
`Int`.  The AVL node stores a height field (`int height`), embedded as an
`Int` field of the `node` constructor.
-/

/-- The plain binary search tree of `src/BinarySearchTree.cpp`.
`node l x r` is a `Node` with `left = l`, `data = x`, `right = r`;
`leaf` is the null pointer. -/
inductive BinarySearchTree where
  | leaf : BinarySearchTree
  | node : BinarySearchTree → Int → BinarySearchTree → BinarySearchTree
deriving DecidableEq

namespace BinarySearchTree

/-- Embedding of `BinarySearchTree::insert(Node*, int)` (lines 32-48): descend by
comparison and graft a fresh node at the null position reached; an equal
key falls through both comparisons and the node is returned unchanged. -/
def insert : BinarySearchTree → Int → BinarySearchTree
  | leaf, d => node leaf d leaf
  | node l x r, d =>
    if d < x then node (insert l d) x r
    else if d > x then node l x (insert r d)
    else node l x r

/-- Embedding of `BinarySearchTree::min_value_node(Node*)` (lines 102-111): loop down to
the leftmost node and return its data.  The C++ function returns the null
pointer when given one and every caller dereferences the result, so the
`leaf` case (never exercised by `remove`) is given an arbitrary value. -/
def minValue : BinarySearchTree → Int
  | leaf => 0
  | node l x _ => if l = leaf then x else minValue l

/-- Embedding of `BinarySearchTree::remove(Node*, int)` (lines 57-94): descend by
comparison; on a match, a node with a null child is replaced by its other
child, and a node with two children receives the data of the smallest node
of its right subtree, which is then removed from that right subtree. -/
def remove : BinarySearchTree → Int → BinarySearchTree
  | leaf, _ => leaf
  | node l x r, d =>
    if d < x then node (remove l d) x r
    else if d > x then node l x (remove r d)
    else
      if l = leaf then r
      else if r = leaf then l
      else
        node l (minValue r) (remove r (minValue r))

/-- Embedding of `BinarySearchTree::search(Node*, int)` (lines 120-132): return the node
holding the key, or null.  The observable outcome is embedded as the found
node's data (`some`) or `none`. -/
def search : BinarySearchTree → Int → Option Int
  | leaf, _ => none
  | node l x r, d =>
    if x = d then some x
    else if d < x then search l d
    else search r d

/-- The key sequence printed by `print_in_order` (lines 139-145). -/
def inorder : BinarySearchTree → List Int
  | leaf => []
  | node l x r => inorder l ++ x :: inorder r

/-- Number of nodes of the tree. -/
def size : BinarySearchTree → Nat
  | leaf => 0
  | node l _ r => size l + size r + 1

end BinarySearchTree

/-- The AVL tree of `src/SelfBalancingBinaryTree.cpp`.
`node l x h r` is a `Node` with `left = l`, `data = x`, `height = h`,
`right = r`; `leaf` is the null pointer. -/
inductive SelfBalancingBinaryTree where
  | leaf : SelfBalancingBinaryTree
  | node : SelfBalancingBinaryTree → Int → Int → SelfBalancingBinaryTree →
      SelfBalancingBinaryTree
deriving DecidableEq

namespace SelfBalancingBinaryTree

/-- Embedding of `SelfBalancingBinaryTree::height(Node*)` (lines 34-38): 0 for null,
else the stored height field. -/
def height : SelfBalancingBinaryTree → Int
  | leaf => 0
  | node _ _ h _ => h

/-- Embedding of `SelfBalancingBinaryTree::balance_factor(Node*)` (lines 46-50). -/
def balance_factor : SelfBalancingBinaryTree → Int
  | leaf => 0
  | node l _ _ r => height l - height r

/-- The `data` field of a node.  The C++ rotation guards read
`node->left->data` / `node->right->data`; dereferencing a null pointer is
undefined behaviour there, so the `leaf` case carries an arbitrary value
(the safety claim shows the guards never reach it on reachable trees). -/
def data0 : SelfBalancingBinaryTree → Int
  | leaf => 0
  | node _ x _ _ => x

/-- Embedding of `SelfBalancingBinaryTree::update_height(Node*)` (lines 57-59) applied
to a node rebuilt with children `l`, `r` and data `x`: the stored height
becomes `1 + max (height l) (height r)`. -/
def mkNode (l : SelfBalancingBinaryTree) (x : Int)
    (r : SelfBalancingBinaryTree) : SelfBalancingBinaryTree :=
  node l x (1 + max (height l) (height r)) r

/-- Embedding of `SelfBalancingBinaryTree::rotate_right(Node*)` (lines 67-80): the left
child is promoted, its former right child becomes the demoted node's left
child, and both heights are recomputed (demoted node first).  The C++
function dereferences `node->left`; when that child is null (undefined
behaviour, shown unreachable) the embedding returns the input unchanged. -/
def rotate_right : SelfBalancingBinaryTree → SelfBalancingBinaryTree
  | node (node ll ld _ lr) d _ r => mkNode ll ld (mkNode lr d r)
  | t => t

/-- Embedding of `SelfBalancingBinaryTree::rotate_left(Node*)` (lines 88-101), mirror
image of `rotate_right`. -/
def rotate_left : SelfBalancingBinaryTree → SelfBalancingBinaryTree
  | node l d _ (node rl rd _ rr) => mkNode (mkNode l d rl) rd rr
  | t => t

/-- Lines 122-154 of `SelfBalancingBinaryTree::insert`: after the children
have been rewritten, update the height, compute the balance factor, and
dispatch the four rotation cases gated by comparing the inserted key with
the taller child's data (the local variables `balance` and the updated
height are inlined at their use sites). -/
def insert_fix : SelfBalancingBinaryTree → Int → SelfBalancingBinaryTree
  | leaf, _ => leaf
  | node l x _ r, d =>
    if height l - height r > 1 ∧ d < data0 l then
      rotate_right (node l x (1 + max (height l) (height r)) r)
    else if height l - height r < -1 ∧ d > data0 r then
      rotate_left (node l x (1 + max (height l) (height r)) r)
    else if height l - height r > 1 ∧ d > data0 l then
      rotate_right (node (rotate_left l) x (1 + max (height l) (height r)) r)
    else if height l - height r < -1 ∧ d < data0 r then
      rotate_left (node l x (1 + max (height l) (height r)) (rotate_right r))
    else node l x (1 + max (height l) (height r)) r

/-- Embedding of `SelfBalancingBinaryTree::insert(Node*, int)` (lines 110-155): standard
BST descent; a duplicate key returns the node unchanged before any height
update; otherwise the rebalancing tail `insert_fix` runs. -/
def insert : SelfBalancingBinaryTree → Int → SelfBalancingBinaryTree
  | leaf, d => node leaf d 1 leaf
  | node l x h r, d =>
    if d < x then insert_fix (node (insert l d) x h r) d
    else if d > x then insert_fix (node l x h (insert r d)) d
    else node l x h r

/-- Lines 206-238 of `SelfBalancingBinaryTree::remove`: height update,
balance factor, and the four rotation cases gated by the balance factor of
the taller child. -/
def remove_fix : SelfBalancingBinaryTree → SelfBalancingBinaryTree
  | leaf => leaf
  | node l x _ r =>
    if height l - height r > 1 ∧ balance_factor l ≥ 0 then
      rotate_right (node l x (1 + max (height l) (height r)) r)
    else if height l - height r > 1 ∧ balance_factor l < 0 then
      rotate_right (node (rotate_left l) x (1 + max (height l) (height r)) r)
    else if height l - height r < -1 ∧ balance_factor r ≤ 0 then
      rotate_left (node l x (1 + max (height l) (height r)) r)
    else if height l - height r < -1 ∧ balance_factor r > 0 then
      rotate_left (node l x (1 + max (height l) (height r)) (rotate_right r))
    else node l x (1 + max (height l) (height r)) r

/-- The inline successor loop of `SelfBalancingBinaryTree::remove`
(lines 189-193): leftmost data of a subtree (callers pass a non-null
node; the `leaf` value is arbitrary). -/
def minData : SelfBalancingBinaryTree → Int
  | leaf => 0
  | node l x _ _ => if l = leaf then x else minData l

/-- Embedding of `SelfBalancingBinaryTree::remove(Node*, int)` (lines 164-239): BST
descent; on a match, a node with at most one child is replaced by that
child (the no-child case returns null immediately, skipping rebalancing,
per line 204), a node with two children takes the data of its in-order
successor whose key is then removed from the right subtree; every non-null
result passes through the rebalancing tail `remove_fix`. -/
def remove : SelfBalancingBinaryTree → Int → SelfBalancingBinaryTree
  | leaf, _ => leaf
  | node l x h r, d =>
    if d < x then remove_fix (node (remove l d) x h r)
    else if d > x then remove_fix (node l x h (remove r d))
    else
      if l = leaf then
        if r = leaf then leaf else remove_fix r
      else if r = leaf then remove_fix l
      else
        remove_fix (node l (minData r) h (remove r (minData r)))

/-- Embedding of `SelfBalancingBinaryTree::search(Node*, int)` (lines 248-260),
identical to the plain tree's search. -/
def search : SelfBalancingBinaryTree → Int → Option Int
  | leaf, _ => none
  | node l x _ r, d =>
    if x = d then some x
    else if d < x then search l d
    else search r d

/-- The key sequence printed by `print_in_order` (lines 267-273). -/
def inorder : SelfBalancingBinaryTree → List Int
  | leaf => []
  | node l x _ r => inorder l ++ x :: inorder r

/-- Data of the root node, if any. -/
def rootData : SelfBalancingBinaryTree → Option Int
  | leaf => none
  | node _ x _ _ => some x

/-- The true height of the embedded tree, computed from the structure
(as opposed to the stored height fields). -/
def realHeight : SelfBalancingBinaryTree → Nat
  | leaf => 0
  | node l _ _ r => 1 + max (realHeight l) (realHeight r)

end SelfBalancingBinaryTree

/-- A public mutating or observing operation on a tree: `insert(k)`,
`remove(k)` or `search(k)` (the latter leaves the tree unchanged). -/
inductive Op where
  | ins : Int → Op
  | del : Int → Op
  | find : Int → Op
deriving DecidableEq

namespace BinarySearchTree

/-- Effect of one public operation on the plain tree. -/
def applyOp (t : BinarySearchTree) : Op → BinarySearchTree
  | .ins k => t.insert k
  | .del k => t.remove k
  | .find _ => t

/-- State of the plain tree after a sequence of public operations starting
from the empty tree (null root). -/
def runOps (ops : List Op) : BinarySearchTree :=
  ops.foldl applyOp leaf

end BinarySearchTree

namespace SelfBalancingBinaryTree

/-- Effect of one public operation on the self-balancing tree. -/
def applyOp (t : SelfBalancingBinaryTree) : Op → SelfBalancingBinaryTree
  | .ins k => t.insert k
  | .del k => t.remove k
  | .find _ => t

/-- State of the self-balancing tree after a sequence of public operations
starting from the empty tree (null root). -/
def runOps (ops : List Op) : SelfBalancingBinaryTree :=
  ops.foldl applyOp leaf

end SelfBalancingBinaryTree

namespace BinarySearchTree

/-- The comparison path walked by `BinarySearchTree::insert` for a key:
`true` records a step into the left child, `false` a step into the right
child; the path stops at a null pointer or at an equal key. -/
def descend : BinarySearchTree → Int → List Bool
  | leaf, _ => []
  | node l x r, d =>
    if d < x then true :: descend l d
    else if d > x then false :: descend r d
    else []

/-- The subtree found by following a left/right path from the root
(`none` when the path walks past a null pointer). -/
def subtreeAt : BinarySearchTree → List Bool → Option BinarySearchTree
  | t, [] => some t
  | leaf, _ :: _ => none
  | node l _ _, true :: p => subtreeAt l p
  | node _ _ r, false :: p => subtreeAt r p

/-- Replace the subtree at the end of a left/right path, keeping the data
and the off-path child of every node along the path and every node off the
path untouched. -/
def replaceAt : BinarySearchTree → List Bool → BinarySearchTree →
    BinarySearchTree
  | _, [], s => s
  | leaf, _ :: _, _ => leaf
  | node l x r, true :: p, s => node (replaceAt l p s) x r
  | node l x r, false :: p, s => node l x (replaceAt r p s)

end BinarySearchTree

namespace SelfBalancingBinaryTree

/-- Variant of `insert_fix` paired with the number of rotation-primitive invocations
it performs (a double rotation counts two). -/
def insert_fixC : SelfBalancingBinaryTree → Int →
    SelfBalancingBinaryTree × Nat
  | leaf, _ => (leaf, 0)
  | node l x _ r, d =>
    if height l - height r > 1 ∧ d < data0 l then
      (rotate_right (node l x (1 + max (height l) (height r)) r), 1)
    else if height l - height r < -1 ∧ d > data0 r then
      (rotate_left (node l x (1 + max (height l) (height r)) r), 1)
    else if height l - height r > 1 ∧ d > data0 l then
      (rotate_right (node (rotate_left l) x (1 + max (height l) (height r)) r), 2)
    else if height l - height r < -1 ∧ d < data0 r then
      (rotate_left (node l x (1 + max (height l) (height r)) (rotate_right r)), 2)
    else (node l x (1 + max (height l) (height r)) r, 0)

/-- Variant of `insert` paired with the total number of rotation-primitive invocations
performed during the call. -/
def insertC : SelfBalancingBinaryTree → Int → SelfBalancingBinaryTree × Nat
  | leaf, d => (node leaf d 1 leaf, 0)
  | node l x h r, d =>
    if d < x then
      let p := insertC l d
      let q := insert_fixC (node p.1 x h r) d
      (q.1, p.2 + q.2)
    else if d > x then
      let p := insertC r d
      let q := insert_fixC (node l x h p.1) d
      (q.1, p.2 + q.2)
    else (node l x h r, 0)

/-- Variant of `rotate_right` guarded by its precondition: `none` exactly when the
C++ code would dereference a null `node->left`. -/
def rotate_rightChk : SelfBalancingBinaryTree → Option SelfBalancingBinaryTree
  | node (node ll ld lh lr) d h r =>
      some (rotate_right (node (node ll ld lh lr) d h r))
  | _ => none

/-- Variant of `rotate_left` guarded by its precondition: `none` exactly when the
C++ code would dereference a null `node->right`. -/
def rotate_leftChk : SelfBalancingBinaryTree → Option SelfBalancingBinaryTree
  | node l d h (node rl rd rh rr) =>
      some (rotate_left (node l d h (node rl rd rh rr)))
  | _ => none

/-- Variant of `insert_fix` with every rotation replaced by its guarded version, so
the whole computation fails (`none`) exactly when some rotation primitive
would be invoked on a node missing its required child. -/
def insert_fixChk : SelfBalancingBinaryTree → Int →
    Option SelfBalancingBinaryTree
  | leaf, _ => some leaf
  | node l x _ r, d =>
    if height l - height r > 1 ∧ d < data0 l then
      rotate_rightChk (node l x (1 + max (height l) (height r)) r)
    else if height l - height r < -1 ∧ d > data0 r then
      rotate_leftChk (node l x (1 + max (height l) (height r)) r)
    else if height l - height r > 1 ∧ d > data0 l then
      (rotate_leftChk l).bind fun l2 =>
        rotate_rightChk (node l2 x (1 + max (height l) (height r)) r)
    else if height l - height r < -1 ∧ d < data0 r then
      (rotate_rightChk r).bind fun r2 =>
        rotate_leftChk (node l x (1 + max (height l) (height r)) r2)
    else some (node l x (1 + max (height l) (height r)) r)

/-- Variant of `insert` with every rotation replaced by its guarded version. -/
def insertChk : SelfBalancingBinaryTree → Int →
    Option SelfBalancingBinaryTree
  | leaf, d => some (node leaf d 1 leaf)
  | node l x h r, d =>
    if d < x then
      (insertChk l d).bind fun l2 => insert_fixChk (node l2 x h r) d
    else if d > x then
      (insertChk r d).bind fun r2 => insert_fixChk (node l x h r2) d
    else some (node l x h r)

/-- Variant of `remove_fix` with every rotation replaced by its guarded version. -/
def remove_fixChk : SelfBalancingBinaryTree → Option SelfBalancingBinaryTree
  | leaf => some leaf
  | node l x _ r =>
    if height l - height r > 1 ∧ balance_factor l ≥ 0 then
      rotate_rightChk (node l x (1 + max (height l) (height r)) r)
    else if height l - height r > 1 ∧ balance_factor l < 0 then
      (rotate_leftChk l).bind fun l2 =>
        rotate_rightChk (node l2 x (1 + max (height l) (height r)) r)
    else if height l - height r < -1 ∧ balance_factor r ≤ 0 then
      rotate_leftChk (node l x (1 + max (height l) (height r)) r)
    else if height l - height r < -1 ∧ balance_factor r > 0 then
      (rotate_rightChk r).bind fun r2 =>
        rotate_leftChk (node l x (1 + max (height l) (height r)) r2)
    else some (node l x (1 + max (height l) (height r)) r)

/-- Variant of `remove` with every rotation replaced by its guarded version. -/
def removeChk : SelfBalancingBinaryTree → Int →
    Option SelfBalancingBinaryTree
  | leaf, _ => some leaf
  | node l x h r, d =>
    if d < x then
      (removeChk l d).bind fun l2 => remove_fixChk (node l2 x h r)
    else if d > x then
      (removeChk r d).bind fun r2 => remove_fixChk (node l x h r2)
    else
      if l = leaf then
        if r = leaf then some leaf else remove_fixChk r
      else if r = leaf then remove_fixChk l
      else
        (removeChk r (minData r)).bind fun r2 =>
          remove_fixChk (node l (minData r) h r2)

end SelfBalancingBinaryTree

/-! ## Invariants -/

namespace BinarySearchTree

/-- Every key stored in the tree satisfies `p`. -/
def All (p : Int → Prop) : BinarySearchTree → Prop
  | leaf => True
  | node l x r => All p l ∧ p x ∧ All p r

/-- The binary-search-tree ordering invariant: at every node, all keys of
the left subtree are strictly below the node's key and all keys of the
right subtree strictly above it. -/
def Ordered : BinarySearchTree → Prop
  | leaf => True
  | node l x r => Ordered l ∧ Ordered r ∧ All (· < x) l ∧ All (x < ·) r

def decAll (p : Int → Prop) [DecidablePred p] :
    (t : BinarySearchTree) → Decidable (All p t)
  | .leaf => .isTrue trivial
  | .node l x r =>
    haveI := decAll p l
    haveI := decAll p r
    inferInstanceAs (Decidable (All p l ∧ p x ∧ All p r))

instance (p : Int → Prop) [DecidablePred p] (t : BinarySearchTree) :
    Decidable (All p t) := decAll p t

def decOrdered : (t : BinarySearchTree) → Decidable (Ordered t)
  | .leaf => .isTrue trivial
  | .node l x r =>
    haveI := decOrdered l
    haveI := decOrdered r
    inferInstanceAs
      (Decidable (Ordered l ∧ Ordered r ∧ All (· < x) l ∧ All (x < ·) r))

instance (t : BinarySearchTree) : Decidable (Ordered t) := decOrdered t

end BinarySearchTree

namespace SelfBalancingBinaryTree

/-- Every key stored in the tree satisfies `p`. -/
def All (p : Int → Prop) : SelfBalancingBinaryTree → Prop
  | leaf => True
  | node l x _ r => All p l ∧ p x ∧ All p r

/-- The binary-search-tree ordering invariant. -/
def Ordered : SelfBalancingBinaryTree → Prop
  | leaf => True
  | node l x _ r => Ordered l ∧ Ordered r ∧ All (· < x) l ∧ All (x < ·) r

/-- Every node's stored height field equals `1 + max` of its children's
stored heights (an absent child counting as height `0`). -/
def HeightsOk : SelfBalancingBinaryTree → Prop
  | leaf => True
  | node l _ h r => h = 1 + max (height l) (height r) ∧ HeightsOk l ∧ HeightsOk r

/-- The AVL balance invariant stated on the stored height fields. -/
def Balanced : SelfBalancingBinaryTree → Prop
  | leaf => True
  | node l _ _ r =>
      -1 ≤ height l - height r ∧ height l - height r ≤ 1 ∧ Balanced l ∧ Balanced r

/-- The AVL balance invariant stated on the true structural heights:
every node's subtree heights differ by at most one. -/
def BalancedReal : SelfBalancingBinaryTree → Prop
  | leaf => True
  | node l _ _ r =>
      realHeight l ≤ realHeight r + 1 ∧ realHeight r ≤ realHeight l + 1 ∧
      BalancedReal l ∧ BalancedReal r

def decAll (p : Int → Prop) [DecidablePred p] :
    (t : SelfBalancingBinaryTree) → Decidable (All p t)
  | .leaf => .isTrue trivial
  | .node l x _ r =>
    haveI := decAll p l
    haveI := decAll p r
    inferInstanceAs (Decidable (All p l ∧ p x ∧ All p r))

instance (p : Int → Prop) [DecidablePred p] (t : SelfBalancingBinaryTree) :
    Decidable (All p t) := decAll p t

def decOrdered : (t : SelfBalancingBinaryTree) → Decidable (Ordered t)
  | .leaf => .isTrue trivial
  | .node l x _ r =>
    haveI := decOrdered l
    haveI := decOrdered r
    inferInstanceAs
      (Decidable (Ordered l ∧ Ordered r ∧ All (· < x) l ∧ All (x < ·) r))

instance (t : SelfBalancingBinaryTree) : Decidable (Ordered t) := decOrdered t

def decHeightsOk : (t : SelfBalancingBinaryTree) → Decidable (HeightsOk t)
  | .leaf => .isTrue trivial
  | .node l _ h r =>
    haveI := decHeightsOk l
    haveI := decHeightsOk r
    inferInstanceAs
      (Decidable (h = 1 + max (height l) (height r) ∧ HeightsOk l ∧ HeightsOk r))

instance (t : SelfBalancingBinaryTree) : Decidable (HeightsOk t) :=
  decHeightsOk t

def decBalanced : (t : SelfBalancingBinaryTree) → Decidable (Balanced t)
  | .leaf => .isTrue trivial
  | .node l _ _ r =>
    haveI := decBalanced l
    haveI := decBalanced r
    inferInstanceAs (Decidable
      (-1 ≤ height l - height r ∧ height l - height r ≤ 1 ∧
        Balanced l ∧ Balanced r))

instance (t : SelfBalancingBinaryTree) : Decidable (Balanced t) :=
  decBalanced t

def decBalancedReal :
    (t : SelfBalancingBinaryTree) → Decidable (BalancedReal t)
  | .leaf => .isTrue trivial
  | .node l _ _ r =>
    haveI := decBalancedReal l
    haveI := decBalancedReal r
    inferInstanceAs (Decidable
      (realHeight l ≤ realHeight r + 1 ∧ realHeight r ≤ realHeight l + 1 ∧
        BalancedReal l ∧ BalancedReal r))

instance (t : SelfBalancingBinaryTree) : Decidable (BalancedReal t) :=
  decBalancedReal t

end SelfBalancingBinaryTree

/-! ## Plain binary search tree: lemmas -/

namespace BinarySearchTree

theorem bst_all_mono {p q : Int → Prop} (hpq : ∀ k, p k → q k) :
    ∀ t, All p t → All q t
  | leaf, _ => True.intro
  | node l x r, h => ⟨bst_all_mono hpq l h.1, hpq x h.2.1, bst_all_mono hpq r h.2.2⟩

theorem bst_all_iff (p : Int → Prop) : ∀ t, All p t ↔ ∀ k ∈ inorder t, p k
  | leaf => by simp [All, inorder]
  | node l x r => by
    simp only [All, inorder, List.mem_append, List.mem_cons, bst_all_iff p l,
      bst_all_iff p r]
    constructor
    · rintro ⟨h1, h2, h3⟩ k (hk | rfl | hk)
      · exact h1 k hk
      · exact h2
      · exact h3 k hk
    · intro h
      exact ⟨fun k hk => h k (Or.inl hk), h x (Or.inr (Or.inl rfl)),
        fun k hk => h k (Or.inr (Or.inr hk))⟩

theorem bst_sorted_inorder : ∀ t, Ordered t → (inorder t).Sorted (· < ·)
  | leaf, _ => List.sorted_nil
  | node l x r, ⟨hl, hr, hal, har⟩ => by
    have sl := bst_sorted_inorder l hl
    have sr := bst_sorted_inorder r hr
    show (inorder l ++ x :: inorder r).Pairwise (· < ·)
    refine List.pairwise_append.mpr ⟨sl, ?_, ?_⟩
    · exact List.pairwise_cons.mpr ⟨(bst_all_iff _ r).mp har, sr⟩
    · intro a ha b hb
      have h1 := (bst_all_iff _ l).mp hal a ha
      rcases List.mem_cons.mp hb with rfl | hb
      · exact h1
      · exact h1.trans ((bst_all_iff _ r).mp har b hb)

theorem bst_inorder_eq_nil : ∀ t, inorder t = [] ↔ t = leaf
  | leaf => by simp [inorder]
  | node l x r => by simp [inorder]

theorem bst_all_insert {p : Int → Prop} {d : Int} (hd : p d) :
    ∀ t, All p t → All p (insert t d)
  | leaf, _ => ⟨True.intro, hd, True.intro⟩
  | node l x r, ⟨h1, h2, h3⟩ => by
    simp only [insert]
    split_ifs with hc1 hc2
    · exact ⟨bst_all_insert hd l h1, h2, h3⟩
    · exact ⟨h1, h2, bst_all_insert hd r h3⟩
    · exact ⟨h1, h2, h3⟩

theorem bst_ordered_insert (d : Int) : ∀ t, Ordered t → Ordered (insert t d)
  | leaf, _ => ⟨True.intro, True.intro, True.intro, True.intro⟩
  | node l x r, ⟨hl, hr, hal, har⟩ => by
    simp only [insert]
    split_ifs with h1 h2
    · exact ⟨bst_ordered_insert d l hl, hr,
        bst_all_insert (p := fun k => k < x) h1 l hal, har⟩
    · exact ⟨hl, bst_ordered_insert d r hr, hal,
        bst_all_insert (p := fun k => x < k) h2 r har⟩
    · exact ⟨hl, hr, hal, har⟩

theorem bst_insert_eq_of_mem : ∀ t, Ordered t → ∀ d, d ∈ inorder t → insert t d = t
  | leaf, _, d, hmem => absurd hmem (by simp [inorder])
  | node l x r, ⟨hl, hr, hal, har⟩, d, hmem => by
    rcases List.mem_append.mp hmem with hml | hmx
    · have h1 : d < x := (bst_all_iff _ l).mp hal d hml
      simp only [insert]
      rw [if_pos h1, bst_insert_eq_of_mem l hl d hml]
    · rcases List.mem_cons.mp hmx with rfl | hmr
      · simp only [insert]
        rw [if_neg (lt_irrefl d), if_neg (lt_irrefl d)]
      · have h1 : x < d := (bst_all_iff _ r).mp har d hmr
        simp only [insert]
        rw [if_neg (by omega : ¬ d < x), if_pos h1,
          bst_insert_eq_of_mem r hr d hmr]

theorem bst_inorder_insert_perm : ∀ t d, d ∉ inorder t →
    (inorder (insert t d)).Perm (d :: inorder t)
  | leaf, d, _ => by simp [insert, inorder]
  | node l x r, d, hmem => by
    have hmx : d ≠ x := fun h => hmem (by simp [inorder, h])
    have hml : d ∉ inorder l := fun hc => hmem (by simp [inorder, hc])
    have hmr : d ∉ inorder r := fun hc => hmem (by simp [inorder, hc])
    simp only [insert]
    rcases lt_trichotomy d x with h1 | h1 | h1
    · rw [if_pos h1]
      show (inorder (insert l d) ++ x :: inorder r).Perm
        (d :: (inorder l ++ x :: inorder r))
      exact (bst_inorder_insert_perm l d hml).append_right _
    · exact absurd h1 hmx
    · rw [if_neg (by omega : ¬ d < x), if_pos h1]
      show (inorder l ++ x :: inorder (insert r d)).Perm
        (d :: (inorder l ++ x :: inorder r))
      have step1 : (inorder l ++ x :: inorder (insert r d)).Perm
          (inorder l ++ x :: d :: inorder r) :=
        List.Perm.append_left _ ((bst_inorder_insert_perm r d hmr).cons x)
      have step2 : (inorder l ++ x :: d :: inorder r).Perm
          (d :: (inorder l ++ x :: inorder r)) := by
        simpa using
          @List.perm_middle Int d (inorder l ++ [x]) (inorder r)
      exact step1.trans step2

theorem bst_inorder_insert_of_mem (t : BinarySearchTree) (ht : Ordered t) (d : Int)
    (hmem : d ∈ inorder t) : inorder (insert t d) = inorder t := by
  rw [bst_insert_eq_of_mem t ht d hmem]

theorem minValue_head : ∀ t, t ≠ leaf → ∃ tl, inorder t = minValue t :: tl
  | node l x r, _ => by
    by_cases hl : l = leaf
    · subst hl
      exact ⟨inorder r, by simp [inorder, minValue]⟩
    · obtain ⟨tl, htl⟩ := minValue_head l hl
      refine ⟨tl ++ x :: inorder r, ?_⟩
      simp [inorder, minValue, hl, htl]

theorem all_minValue {p : Int → Prop} (t : BinarySearchTree) (ht : t ≠ leaf)
    (hall : All p t) : p (minValue t) := by
  obtain ⟨tl, htl⟩ := minValue_head t ht
  exact (bst_all_iff p t).mp hall _ (by rw [htl]; exact List.mem_cons_self _ _)

theorem bst_all_remove {p : Int → Prop} : ∀ t, All p t → ∀ d, All p (remove t d)
  | leaf, _, _ => True.intro
  | node l x r, ⟨h1, h2, h3⟩, d => by
    simp only [remove]
    split_ifs with hc1 hc2 hc3 hc4
    · exact ⟨bst_all_remove l h1 d, h2, h3⟩
    · exact ⟨h1, h2, bst_all_remove r h3 d⟩
    · exact h3
    · exact h1
    · exact ⟨h1, all_minValue r hc4 h3, bst_all_remove r h3 (minValue r)⟩

theorem bst_min_remove_all : ∀ t, Ordered t → t ≠ leaf →
    All (minValue t < ·) (remove t (minValue t))
  | node l x r, ⟨hl, hr, hal, har⟩, _ => by
    by_cases hleaf : l = leaf
    · subst hleaf
      have hmv : minValue (node leaf x r) = x := by simp [minValue]
      have hrm : remove (node leaf x r) x = r := by simp [remove]
      rw [hmv, hrm]
      exact har
    · have hmv : minValue (node l x r) = minValue l := by simp [minValue, hleaf]
      have hmlt : minValue l < x := all_minValue l hleaf hal
      rw [hmv]
      simp only [remove]
      rw [if_pos hmlt]
      exact ⟨bst_min_remove_all l hl hleaf, hmlt,
        bst_all_mono (fun k hk => hmlt.trans hk) r har⟩

theorem bst_ordered_remove : ∀ t, Ordered t → ∀ d, Ordered (remove t d)
  | leaf, _, _ => True.intro
  | node l x r, ⟨hl, hr, hal, har⟩, d => by
    simp only [remove]
    split_ifs with hc1 hc2 hc3 hc4
    · exact ⟨bst_ordered_remove l hl d, hr, bst_all_remove l hal d, har⟩
    · exact ⟨hl, bst_ordered_remove r hr d, hal, bst_all_remove r har d⟩
    · exact hr
    · exact hl
    · have hxm : x < minValue r := all_minValue r hc4 har
      exact ⟨hl, bst_ordered_remove r hr (minValue r),
        bst_all_mono (fun k hk => hk.trans hxm) l hal,
        bst_min_remove_all r hr hc4⟩

theorem bst_inorder_remove : ∀ t, Ordered t → ∀ d,
    inorder (remove t d) = (inorder t).erase d
  | leaf, _, d => by simp [remove, inorder]
  | node l x r, ⟨hl, hr, hal, har⟩, d => by
    simp only [remove]
    rcases lt_trichotomy d x with h1 | h1 | h1
    · rw [if_pos h1]
      have hdr : d ∉ inorder r := fun hc =>
        absurd ((bst_all_iff _ r).mp har d hc) (by omega)
      have hdx : ¬(x == d) := by simp; omega
      show inorder (remove l d) ++ x :: inorder r
          = (inorder l ++ x :: inorder r).erase d
      by_cases hdl : d ∈ inorder l
      · rw [bst_inorder_remove l hl d, List.erase_append_left _ hdl]
      · rw [bst_inorder_remove l hl d, List.erase_of_not_mem hdl,
          List.erase_append_right _ hdl, List.erase_cons_tail hdx,
          List.erase_of_not_mem hdr]
    · subst h1
      rw [if_neg (lt_irrefl d), if_neg (lt_irrefl d)]
      have hdl : d ∉ inorder l := fun hc =>
        absurd ((bst_all_iff _ l).mp hal d hc) (by omega)
      show inorder _ = (inorder l ++ d :: inorder r).erase d
      rw [List.erase_append_right _ hdl, List.erase_cons_head]
      split_ifs with hc3 hc4
      · subst hc3; simp [inorder]
      · subst hc4; simp [inorder]
      · show inorder l ++ minValue r :: inorder (remove r (minValue r))
            = inorder l ++ inorder r
        obtain ⟨tl, htl⟩ := minValue_head r hc4
        rw [bst_inorder_remove r hr (minValue r), htl, List.erase_cons_head]
    · rw [if_neg (by omega : ¬ d < x), if_pos h1]
      have hdl : d ∉ inorder l := fun hc =>
        absurd ((bst_all_iff _ l).mp hal d hc) (by omega)
      have hdx : ¬(x == d) := by simp; omega
      show inorder l ++ x :: inorder (remove r d)
          = (inorder l ++ x :: inorder r).erase d
      rw [bst_inorder_remove r hr d, List.erase_append_right _ hdl,
        List.erase_cons_tail hdx]

theorem bst_remove_eq_of_not_mem : ∀ t d, d ∉ inorder t → remove t d = t
  | leaf, _, _ => rfl
  | node l x r, d, hmem => by
    have hmx : d ≠ x := fun h => hmem (by simp [inorder, h])
    have hml : d ∉ inorder l := fun hc => hmem (by simp [inorder, hc])
    have hmr : d ∉ inorder r := fun hc => hmem (by simp [inorder, hc])
    simp only [remove]
    rcases lt_or_gt_of_ne hmx with h1 | h1
    · rw [if_pos h1, bst_remove_eq_of_not_mem l d hml]
    · rw [if_neg (by omega : ¬ d < x), if_pos h1,
        bst_remove_eq_of_not_mem r d hmr]

theorem bst_search_eq : ∀ t, Ordered t → ∀ d,
    search t d = if d ∈ inorder t then some d else none
  | leaf, _, d => by simp [search, inorder]
  | node l x r, ⟨hl, hr, hal, har⟩, d => by
    have hmem : d ∈ inorder (node l x r) ↔
        d ∈ inorder l ∨ d = x ∨ d ∈ inorder r := by
      simp [inorder]
    simp only [search]
    rcases lt_trichotomy d x with h1 | h1 | h1
    · have hdr : d ∉ inorder r := fun hc =>
        absurd ((bst_all_iff _ r).mp har d hc) (by omega)
      rw [if_neg (by omega : ¬ x = d), if_pos h1, bst_search_eq l hl d]
      by_cases hdl : d ∈ inorder l
      · rw [if_pos hdl, if_pos (hmem.mpr (Or.inl hdl))]
      · rw [if_neg hdl, if_neg (fun hc => by
          rcases hmem.mp hc with h | h | h
          · exact hdl h
          · exact absurd h (by omega)
          · exact hdr h)]
    · subst h1
      rw [if_pos rfl, if_pos (hmem.mpr (Or.inr (Or.inl rfl)))]
    · have hdl : d ∉ inorder l := fun hc =>
        absurd ((bst_all_iff _ l).mp hal d hc) (by omega)
      rw [if_neg (by omega : ¬ x = d), if_neg (by omega : ¬ d < x),
        bst_search_eq r hr d]
      by_cases hdr : d ∈ inorder r
      · rw [if_pos hdr, if_pos (hmem.mpr (Or.inr (Or.inr hdr)))]
      · rw [if_neg hdr, if_neg (fun hc => by
          rcases hmem.mp hc with h | h | h
          · exact hdl h
          · exact absurd h (by omega)
          · exact hdr h)]

end BinarySearchTree

/-! ## Self-balancing tree: order and traversal lemmas -/

namespace SelfBalancingBinaryTree

theorem height_leaf : height leaf = 0 := rfl

theorem height_node (l : SelfBalancingBinaryTree) (x h : Int)
    (r : SelfBalancingBinaryTree) : height (node l x h r) = h := rfl

theorem data0_node (l : SelfBalancingBinaryTree) (x h : Int)
    (r : SelfBalancingBinaryTree) : data0 (node l x h r) = x := rfl

theorem height_nonneg : ∀ t, HeightsOk t → 0 ≤ height t
  | leaf, _ => le_refl 0
  | node l _ _ r, ⟨hh, hl, hr⟩ => by
    have h1 := height_nonneg l hl
    have h2 := height_nonneg r hr
    simp only [height]
    have hm := max_choice (height l) (height r)
    omega

theorem all_mono {p q : Int → Prop} (hpq : ∀ k, p k → q k) :
    ∀ t, All p t → All q t
  | leaf, _ => True.intro
  | node l x _ r, h => ⟨all_mono hpq l h.1, hpq x h.2.1, all_mono hpq r h.2.2⟩

theorem all_iff (p : Int → Prop) : ∀ t, All p t ↔ ∀ k ∈ inorder t, p k
  | leaf => by simp [All, inorder]
  | node l x h r => by
    simp only [All, inorder, List.mem_append, List.mem_cons, all_iff p l,
      all_iff p r]
    constructor
    · rintro ⟨h1, h2, h3⟩ k (hk | rfl | hk)
      · exact h1 k hk
      · exact h2
      · exact h3 k hk
    · intro h
      exact ⟨fun k hk => h k (Or.inl hk), h x (Or.inr (Or.inl rfl)),
        fun k hk => h k (Or.inr (Or.inr hk))⟩

theorem sorted_inorder : ∀ t, Ordered t → (inorder t).Sorted (· < ·)
  | leaf, _ => List.sorted_nil
  | node l x h r, ⟨hl, hr, hal, har⟩ => by
    have sl := sorted_inorder l hl
    have sr := sorted_inorder r hr
    show (inorder l ++ x :: inorder r).Pairwise (· < ·)
    refine List.pairwise_append.mpr ⟨sl, ?_, ?_⟩
    · exact List.pairwise_cons.mpr ⟨(all_iff _ r).mp har, sr⟩
    · intro a ha b hb
      have h1 := (all_iff _ l).mp hal a ha
      rcases List.mem_cons.mp hb with rfl | hb
      · exact h1
      · exact h1.trans ((all_iff _ r).mp har b hb)

theorem inorder_eq_nil : ∀ t, inorder t = [] ↔ t = leaf
  | leaf => by simp [inorder]
  | node l x h r => by simp [inorder]

theorem inorder_rotate_right : ∀ t, inorder (rotate_right t) = inorder t
  | leaf => rfl
  | node leaf _ _ _ => rfl
  | node (node _ _ _ _) _ _ _ => by simp [rotate_right, mkNode, inorder]

theorem inorder_rotate_left : ∀ t, inorder (rotate_left t) = inorder t
  | leaf => rfl
  | node _ _ _ leaf => rfl
  | node _ _ _ (node _ _ _ _) => by simp [rotate_left, mkNode, inorder]

theorem all_rotate_right {p : Int → Prop} : ∀ t, All p t → All p (rotate_right t)
  | leaf, h => h
  | node leaf _ _ _, h => h
  | node (node _ _ _ _) _ _ _, ⟨⟨a1, a2, a3⟩, hx, hr⟩ => ⟨a1, a2, a3, hx, hr⟩

theorem all_rotate_left {p : Int → Prop} : ∀ t, All p t → All p (rotate_left t)
  | leaf, h => h
  | node _ _ _ leaf, h => h
  | node _ _ _ (node _ _ _ _), ⟨hl, hx, b1, b2, b3⟩ => ⟨⟨hl, hx, b1⟩, b2, b3⟩

theorem ordered_rotate_right : ∀ t, Ordered t → Ordered (rotate_right t)
  | leaf, h => h
  | node leaf _ _ _, h => h
  | node (node ll ld lh lr) d h r,
      ⟨⟨oll, olr, hall, halr⟩, or_, ⟨hal1, hald, hal2⟩, har⟩ =>
    ⟨oll, ⟨olr, or_, hal2, har⟩, hall,
      ⟨halr, hald, all_mono (fun k hk => hald.trans hk) r har⟩⟩

theorem ordered_rotate_left : ∀ t, Ordered t → Ordered (rotate_left t)
  | leaf, h => h
  | node _ _ _ leaf, h => h
  | node l d h (node rl rd rh rr),
      ⟨ol, ⟨orl, orr, harl, harr⟩, hal, ⟨har1, hard, har2⟩⟩ =>
    ⟨⟨ol, orl, hal, har1⟩, orr,
      ⟨all_mono (fun k hk => hk.trans hard) l hal, hard, harl⟩, harr⟩

theorem inorder_insert_fix :
    ∀ t d, inorder (insert_fix t d) = inorder t
  | leaf, _ => rfl
  | node l x h r, d => by
    simp only [insert_fix]
    split_ifs <;>
      simp [inorder_rotate_right, inorder_rotate_left, inorder]

theorem inorder_remove_fix : ∀ t, inorder (remove_fix t) = inorder t
  | leaf => rfl
  | node l x h r => by
    simp only [remove_fix]
    split_ifs <;>
      simp [inorder_rotate_right, inorder_rotate_left, inorder]

theorem all_insert_fix {p : Int → Prop} : ∀ t, All p t → ∀ d, All p (insert_fix t d)
  | leaf, h, _ => h
  | node l x hh r, ⟨h1, h2, h3⟩, d => by
    simp only [insert_fix]
    split_ifs
    · apply all_rotate_right; exact ⟨h1, h2, h3⟩
    · apply all_rotate_left; exact ⟨h1, h2, h3⟩
    · apply all_rotate_right; exact ⟨all_rotate_left l h1, h2, h3⟩
    · apply all_rotate_left; exact ⟨h1, h2, all_rotate_right r h3⟩
    · exact ⟨h1, h2, h3⟩

theorem all_remove_fix {p : Int → Prop} : ∀ t, All p t → All p (remove_fix t)
  | leaf, h => h
  | node l x hh r, ⟨h1, h2, h3⟩ => by
    simp only [remove_fix]
    split_ifs
    · apply all_rotate_right; exact ⟨h1, h2, h3⟩
    · apply all_rotate_right; exact ⟨all_rotate_left l h1, h2, h3⟩
    · apply all_rotate_left; exact ⟨h1, h2, h3⟩
    · apply all_rotate_left; exact ⟨h1, h2, all_rotate_right r h3⟩
    · exact ⟨h1, h2, h3⟩

theorem all_insert {p : Int → Prop} {d : Int} (hd : p d) :
    ∀ t, All p t → All p (insert t d)
  | leaf, _ => ⟨True.intro, hd, True.intro⟩
  | node l x h r, ⟨h1, h2, h3⟩ => by
    simp only [insert]
    split_ifs with hc1 hc2
    · exact all_insert_fix (node (insert l d) x h r)
        ⟨all_insert hd l h1, h2, h3⟩ d
    · exact all_insert_fix (node l x h (insert r d))
        ⟨h1, h2, all_insert hd r h3⟩ d
    · exact ⟨h1, h2, h3⟩

theorem ordered_insert_fix {l r : SelfBalancingBinaryTree} {x : Int}
    (hl : Ordered l) (hr : Ordered r) (hal : All (· < x) l)
    (har : All (x < ·) r) (h d : Int) :
    Ordered (insert_fix (node l x h r) d) := by
  simp only [insert_fix]
  split_ifs
  · apply ordered_rotate_right; exact ⟨hl, hr, hal, har⟩
  · apply ordered_rotate_left; exact ⟨hl, hr, hal, har⟩
  · apply ordered_rotate_right
    exact ⟨ordered_rotate_left l hl, hr, all_rotate_left l hal, har⟩
  · apply ordered_rotate_left
    exact ⟨hl, ordered_rotate_right r hr, hal, all_rotate_right r har⟩
  · exact ⟨hl, hr, hal, har⟩

theorem ordered_remove_fix : ∀ t, Ordered t → Ordered (remove_fix t)
  | leaf, h => h
  | node l x h r, ⟨hl, hr, hal, har⟩ => by
    simp only [remove_fix]
    split_ifs
    · apply ordered_rotate_right; exact ⟨hl, hr, hal, har⟩
    · apply ordered_rotate_right
      exact ⟨ordered_rotate_left l hl, hr, all_rotate_left l hal, har⟩
    · apply ordered_rotate_left; exact ⟨hl, hr, hal, har⟩
    · apply ordered_rotate_left
      exact ⟨hl, ordered_rotate_right r hr, hal, all_rotate_right r har⟩
    · exact ⟨hl, hr, hal, har⟩

theorem ordered_insert (d : Int) : ∀ t, Ordered t → Ordered (insert t d)
  | leaf, _ => ⟨True.intro, True.intro, True.intro, True.intro⟩
  | node l x h r, ⟨hl, hr, hal, har⟩ => by
    simp only [insert]
    split_ifs with h1 h2
    · exact ordered_insert_fix (ordered_insert d l hl) hr
        (all_insert (p := fun k => k < x) h1 l hal) har h d
    · exact ordered_insert_fix hl (ordered_insert d r hr) hal
        (all_insert (p := fun k => x < k) h2 r har) h d
    · exact ⟨hl, hr, hal, har⟩

theorem hok_insert_fix {l r : SelfBalancingBinaryTree} {x : Int}
    (hl : HeightsOk l) (hr : HeightsOk r) (h d : Int) :
    HeightsOk (insert_fix (node l x h r) d) := by
  have hln := height_nonneg l hl
  have hrn := height_nonneg r hr
  simp only [insert_fix]
  split_ifs with h1 h2 h3 h4
  · cases l with
    | leaf => exact absurd h1.1 (by simp only [height] at *; omega)
    | node ll p lh lr =>
      obtain ⟨_, hll, hlr⟩ := hl
      exact ⟨rfl, hll, rfl, hlr, hr⟩
  · cases r with
    | leaf => exact absurd h2.1 (by simp only [height] at *; omega)
    | node rl q rh rr =>
      obtain ⟨_, hrl, hrr⟩ := hr
      exact ⟨rfl, ⟨rfl, hl, hrl⟩, hrr⟩
  · cases l with
    | leaf => exact absurd h3.1 (by simp only [height] at *; omega)
    | node ll p lh lr =>
      obtain ⟨_, hll, hlr⟩ := hl
      cases lr with
      | leaf => exact ⟨rfl, hll, rfl, True.intro, hr⟩
      | node a q qh b =>
        obtain ⟨_, ha, hb⟩ := hlr
        exact ⟨rfl, ⟨rfl, hll, ha⟩, rfl, hb, hr⟩
  · cases r with
    | leaf => exact absurd h4.1 (by simp only [height] at *; omega)
    | node rl q rh rr =>
      obtain ⟨_, hrl, hrr⟩ := hr
      cases rl with
      | leaf => exact ⟨rfl, ⟨rfl, hl, True.intro⟩, hrr⟩
      | node a p ph b =>
        obtain ⟨_, ha, hb⟩ := hrl
        exact ⟨rfl, ⟨rfl, hl, ha⟩, rfl, hb, hrr⟩
  · exact ⟨rfl, hl, hr⟩

theorem hok_remove_fix {l r : SelfBalancingBinaryTree} {x : Int}
    (hl : HeightsOk l) (hr : HeightsOk r) (h : Int) :
    HeightsOk (remove_fix (node l x h r)) := by
  have hln := height_nonneg l hl
  have hrn := height_nonneg r hr
  simp only [remove_fix]
  split_ifs with h1 h2 h3 h4
  · cases l with
    | leaf => exact absurd h1.1 (by simp only [height] at *; omega)
    | node ll p lh lr =>
      obtain ⟨_, hll, hlr⟩ := hl
      exact ⟨rfl, hll, rfl, hlr, hr⟩
  · cases l with
    | leaf => exact absurd h2.1 (by simp only [height] at *; omega)
    | node ll p lh lr =>
      obtain ⟨_, hll, hlr⟩ := hl
      cases lr with
      | leaf => exact ⟨rfl, hll, rfl, True.intro, hr⟩
      | node a q qh b =>
        obtain ⟨_, ha, hb⟩ := hlr
        exact ⟨rfl, ⟨rfl, hll, ha⟩, rfl, hb, hr⟩
  · cases r with
    | leaf => exact absurd h3.1 (by simp only [height] at *; omega)
    | node rl q rh rr =>
      obtain ⟨_, hrl, hrr⟩ := hr
      exact ⟨rfl, ⟨rfl, hl, hrl⟩, hrr⟩
  · cases r with
    | leaf => exact absurd h4.1 (by simp only [height] at *; omega)
    | node rl q rh rr =>
      obtain ⟨_, hrl, hrr⟩ := hr
      cases rl with
      | leaf => exact ⟨rfl, ⟨rfl, hl, True.intro⟩, hrr⟩
      | node a p ph b =>
        obtain ⟨_, ha, hb⟩ := hrl
        exact ⟨rfl, ⟨rfl, hl, ha⟩, rfl, hb, hrr⟩
  · exact ⟨rfl, hl, hr⟩

theorem minData_head : ∀ t, t ≠ leaf → ∃ tl, inorder t = minData t :: tl
  | node l x h r, _ => by
    by_cases hl : l = leaf
    · subst hl
      exact ⟨inorder r, by simp [inorder, minData]⟩
    · obtain ⟨tl, htl⟩ := minData_head l hl
      exact ⟨tl ++ x :: inorder r, by simp [inorder, minData, hl, htl]⟩

theorem all_minData {p : Int → Prop} (t : SelfBalancingBinaryTree)
    (ht : t ≠ leaf) (hall : All p t) : p (minData t) := by
  obtain ⟨tl, htl⟩ := minData_head t ht
  exact (all_iff p t).mp hall _ (by rw [htl]; exact List.mem_cons_self _ _)

theorem all_remove {p : Int → Prop} : ∀ t, All p t → ∀ d, All p (remove t d)
  | leaf, _, _ => True.intro
  | node l x h r, ⟨h1, h2, h3⟩, d => by
    simp only [remove]
    split_ifs with hc1 hc2 hc3 hc4 hc5
    · exact all_remove_fix (node (remove l d) x h r)
        ⟨all_remove l h1 d, h2, h3⟩
    · exact all_remove_fix (node l x h (remove r d))
        ⟨h1, h2, all_remove r h3 d⟩
    · exact True.intro
    · exact all_remove_fix r h3
    · exact all_remove_fix l h1
    · exact all_remove_fix (node l (minData r) h (remove r (minData r)))
        ⟨h1, all_minData r hc5 h3, all_remove r h3 (minData r)⟩

theorem min_remove_all : ∀ t, Ordered t → t ≠ leaf →
    All (minData t < ·) (remove t (minData t))
  | node l x h r, ⟨hl, hr, hal, har⟩, _ => by
    by_cases hleaf : l = leaf
    · subst hleaf
      have hmv : minData (node leaf x h r) = x := by simp [minData]
      have hrm : remove (node leaf x h r) x
          = if r = leaf then leaf else remove_fix r := by simp [remove]
      rw [hmv, hrm]
      split_ifs with hr2
      · exact True.intro
      · exact all_remove_fix r har
    · have hmv : minData (node l x h r) = minData l := by simp [minData, hleaf]
      have hmlt : minData l < x := all_minData l hleaf hal
      rw [hmv]
      simp only [remove]
      rw [if_pos hmlt]
      exact all_remove_fix (node (remove l (minData l)) x h r)
        ⟨min_remove_all l hl hleaf, hmlt,
          all_mono (fun k hk => hmlt.trans hk) r har⟩

theorem ordered_remove : ∀ t, Ordered t → ∀ d, Ordered (remove t d)
  | leaf, _, _ => True.intro
  | node l x h r, ⟨hl, hr, hal, har⟩, d => by
    simp only [remove]
    split_ifs with hc1 hc2 hc3 hc4 hc5
    · exact ordered_remove_fix (node (remove l d) x h r)
        ⟨ordered_remove l hl d, hr, all_remove l hal d, har⟩
    · exact ordered_remove_fix (node l x h (remove r d))
        ⟨hl, ordered_remove r hr d, hal, all_remove r har d⟩
    · exact True.intro
    · exact ordered_remove_fix r hr
    · exact ordered_remove_fix l hl
    · have hxm : x < minData r := all_minData r hc5 har
      exact ordered_remove_fix (node l (minData r) h (remove r (minData r)))
        ⟨hl, ordered_remove r hr (minData r),
          all_mono (fun k hk => hk.trans hxm) l hal,
          min_remove_all r hr hc5⟩

theorem inorder_insert_of_mem : ∀ t, Ordered t → ∀ d, d ∈ inorder t →
    inorder (insert t d) = inorder t
  | leaf, _, _, hmem => absurd hmem (by simp [inorder])
  | node l x h r, ⟨hl, hr, hal, har⟩, d, hmem => by
    rcases List.mem_append.mp hmem with hml | hmx
    · have h1 : d < x := (all_iff _ l).mp hal d hml
      simp only [insert]
      rw [if_pos h1, inorder_insert_fix]
      simp only [inorder]
      rw [inorder_insert_of_mem l hl d hml]
    · rcases List.mem_cons.mp hmx with rfl | hmr
      · simp only [insert]
        rw [if_neg (lt_irrefl d), if_neg (lt_irrefl d)]
      · have h1 : x < d := (all_iff _ r).mp har d hmr
        simp only [insert]
        rw [if_neg (by omega : ¬ d < x), if_pos h1, inorder_insert_fix]
        simp only [inorder]
        rw [inorder_insert_of_mem r hr d hmr]

theorem inorder_insert_perm : ∀ t d, d ∉ inorder t →
    (inorder (insert t d)).Perm (d :: inorder t)
  | leaf, d, _ => by simp [insert, inorder]
  | node l x h r, d, hmem => by
    have hmx : d ≠ x := fun hc => hmem (by simp [inorder, hc])
    have hml : d ∉ inorder l := fun hc => hmem (by simp [inorder, hc])
    have hmr : d ∉ inorder r := fun hc => hmem (by simp [inorder, hc])
    simp only [insert]
    rcases lt_trichotomy d x with h1 | h1 | h1
    · rw [if_pos h1, inorder_insert_fix]
      show (inorder (insert l d) ++ x :: inorder r).Perm
        (d :: (inorder l ++ x :: inorder r))
      exact (inorder_insert_perm l d hml).append_right _
    · exact absurd h1 hmx
    · rw [if_neg (by omega : ¬ d < x), if_pos h1, inorder_insert_fix]
      show (inorder l ++ x :: inorder (insert r d)).Perm
        (d :: (inorder l ++ x :: inorder r))
      have step1 : (inorder l ++ x :: inorder (insert r d)).Perm
          (inorder l ++ x :: d :: inorder r) :=
        List.Perm.append_left _ ((inorder_insert_perm r d hmr).cons x)
      have step2 : (inorder l ++ x :: d :: inorder r).Perm
          (d :: (inorder l ++ x :: inorder r)) := by
        simpa using
          @List.perm_middle Int d (inorder l ++ [x]) (inorder r)
      exact step1.trans step2

theorem insert_fix_id {l r : SelfBalancingBinaryTree} {x h : Int}
    (hh : h = 1 + max (height l) (height r))
    (hb1 : -1 ≤ height l - height r) (hb2 : height l - height r ≤ 1)
    (d : Int) : insert_fix (node l x h r) d = node l x h r := by
  have g1 : ¬(height l - height r > 1 ∧ d < data0 l) :=
    fun hc => absurd hc.1 (by omega)
  have g2 : ¬(height l - height r < -1 ∧ d > data0 r) :=
    fun hc => absurd hc.1 (by omega)
  have g3 : ¬(height l - height r > 1 ∧ d > data0 l) :=
    fun hc => absurd hc.1 (by omega)
  have g4 : ¬(height l - height r < -1 ∧ d < data0 r) :=
    fun hc => absurd hc.1 (by omega)
  simp only [insert_fix]
  rw [if_neg g1, if_neg g2, if_neg g3, if_neg g4, ← hh]

theorem remove_fix_id {l r : SelfBalancingBinaryTree} {x h : Int}
    (hh : h = 1 + max (height l) (height r))
    (hb1 : -1 ≤ height l - height r) (hb2 : height l - height r ≤ 1) :
    remove_fix (node l x h r) = node l x h r := by
  have g1 : ¬(height l - height r > 1 ∧ balance_factor l ≥ 0) :=
    fun hc => absurd hc.1 (by omega)
  have g2 : ¬(height l - height r > 1 ∧ balance_factor l < 0) :=
    fun hc => absurd hc.1 (by omega)
  have g3 : ¬(height l - height r < -1 ∧ balance_factor r ≤ 0) :=
    fun hc => absurd hc.1 (by omega)
  have g4 : ¬(height l - height r < -1 ∧ balance_factor r > 0) :=
    fun hc => absurd hc.1 (by omega)
  simp only [remove_fix]
  rw [if_neg g1, if_neg g2, if_neg g3, if_neg g4, ← hh]

theorem insert_eq_of_mem : ∀ t, Ordered t → HeightsOk t → Balanced t →
    ∀ d, d ∈ inorder t → insert t d = t
  | leaf, _, _, _, d, hmem => absurd hmem (by simp [inorder])
  | node l x h r, ⟨ol, or_, hal, har⟩, ⟨hh, hkl, hkr⟩, ⟨hb1, hb2, hbl, hbr⟩,
      d, hmem => by
    rcases List.mem_append.mp hmem with hml | hmx
    · have h1 : d < x := (all_iff _ l).mp hal d hml
      simp only [insert]
      rw [if_pos h1, insert_eq_of_mem l ol hkl hbl d hml]
      exact insert_fix_id hh hb1 hb2 d
    · rcases List.mem_cons.mp hmx with rfl | hmr
      · simp only [insert]
        rw [if_neg (lt_irrefl d), if_neg (lt_irrefl d)]
      · have h1 : x < d := (all_iff _ r).mp har d hmr
        simp only [insert]
        rw [if_neg (by omega : ¬ d < x), if_pos h1,
          insert_eq_of_mem r or_ hkr hbr d hmr]
        exact insert_fix_id hh hb1 hb2 d

theorem remove_eq_of_not_mem : ∀ t, HeightsOk t → Balanced t →
    ∀ d, d ∉ inorder t → remove t d = t
  | leaf, _, _, _, _ => rfl
  | node l x h r, ⟨hh, hkl, hkr⟩, ⟨hb1, hb2, hbl, hbr⟩, d, hmem => by
    have hmx : d ≠ x := fun hc => hmem (by simp [inorder, hc])
    have hml : d ∉ inorder l := fun hc => hmem (by simp [inorder, hc])
    have hmr : d ∉ inorder r := fun hc => hmem (by simp [inorder, hc])
    simp only [remove]
    rcases lt_or_gt_of_ne hmx with h1 | h1
    · rw [if_pos h1, remove_eq_of_not_mem l hkl hbl d hml]
      exact remove_fix_id hh hb1 hb2
    · rw [if_neg (by omega : ¬ d < x), if_pos h1,
        remove_eq_of_not_mem r hkr hbr d hmr]
      exact remove_fix_id hh hb1 hb2

theorem inorder_remove : ∀ t, Ordered t → ∀ d,
    inorder (remove t d) = (inorder t).erase d
  | leaf, _, d => by simp [remove, inorder]
  | node l x h r, ⟨hl, hr, hal, har⟩, d => by
    simp only [remove]
    rcases lt_trichotomy d x with h1 | h1 | h1
    · rw [if_pos h1, inorder_remove_fix]
      have hdr : d ∉ inorder r := fun hc =>
        absurd ((all_iff _ r).mp har d hc) (by omega)
      have hdx : ¬(x == d) := by simp; omega
      show inorder (remove l d) ++ x :: inorder r
          = (inorder l ++ x :: inorder r).erase d
      by_cases hdl : d ∈ inorder l
      · rw [inorder_remove l hl d, List.erase_append_left _ hdl]
      · rw [inorder_remove l hl d, List.erase_of_not_mem hdl,
          List.erase_append_right _ hdl, List.erase_cons_tail hdx,
          List.erase_of_not_mem hdr]
    · subst h1
      rw [if_neg (lt_irrefl d), if_neg (lt_irrefl d)]
      have hdl : d ∉ inorder l := fun hc =>
        absurd ((all_iff _ l).mp hal d hc) (by omega)
      show inorder _ = (inorder l ++ d :: inorder r).erase d
      rw [List.erase_append_right _ hdl, List.erase_cons_head]
      split_ifs with hc3 hc4 hc5
      · subst hc3; subst hc4; simp [inorder]
      · subst hc3
        rw [inorder_remove_fix]
        simp [inorder]
      · subst hc5
        rw [inorder_remove_fix]
        simp [inorder]
      · rw [inorder_remove_fix]
        show inorder l ++ minData r :: inorder (remove r (minData r))
            = inorder l ++ inorder r
        obtain ⟨tl, htl⟩ := minData_head r hc5
        rw [inorder_remove r hr (minData r), htl, List.erase_cons_head]
    · rw [if_neg (by omega : ¬ d < x), if_pos h1, inorder_remove_fix]
      have hdl : d ∉ inorder l := fun hc =>
        absurd ((all_iff _ l).mp hal d hc) (by omega)
      have hdx : ¬(x == d) := by simp; omega
      show inorder l ++ x :: inorder (remove r d)
          = (inorder l ++ x :: inorder r).erase d
      rw [inorder_remove r hr d, List.erase_append_right _ hdl,
        List.erase_cons_tail hdx]

theorem search_eq : ∀ t, Ordered t → ∀ d,
    search t d = if d ∈ inorder t then some d else none
  | leaf, _, d => by simp [search, inorder]
  | node l x h r, ⟨hl, hr, hal, har⟩, d => by
    have hmem : d ∈ inorder (node l x h r) ↔
        d ∈ inorder l ∨ d = x ∨ d ∈ inorder r := by
      simp [inorder]
    simp only [search]
    rcases lt_trichotomy d x with h1 | h1 | h1
    · have hdr : d ∉ inorder r := fun hc =>
        absurd ((all_iff _ r).mp har d hc) (by omega)
      rw [if_neg (by omega : ¬ x = d), if_pos h1, search_eq l hl d]
      by_cases hdl : d ∈ inorder l
      · rw [if_pos hdl, if_pos (hmem.mpr (Or.inl hdl))]
      · rw [if_neg hdl, if_neg (fun hc => by
          rcases hmem.mp hc with hcc | hcc | hcc
          · exact hdl hcc
          · exact absurd hcc (by omega)
          · exact hdr hcc)]
    · subst h1
      rw [if_pos rfl, if_pos (hmem.mpr (Or.inr (Or.inl rfl)))]
    · have hdl : d ∉ inorder l := fun hc =>
        absurd ((all_iff _ l).mp hal d hc) (by omega)
      rw [if_neg (by omega : ¬ x = d), if_neg (by omega : ¬ d < x),
        search_eq r hr d]
      by_cases hdr : d ∈ inorder r
      · rw [if_pos hdr, if_pos (hmem.mpr (Or.inr (Or.inr hdr)))]
      · rw [if_neg hdr, if_neg (fun hc => by
          rcases hmem.mp hc with hcc | hcc | hcc
          · exact hdl hcc
          · exact absurd hcc (by omega)
          · exact hdr hcc)]

theorem hok_insert (d : Int) : ∀ t, HeightsOk t → HeightsOk (insert t d)
  | leaf, _ => ⟨rfl, True.intro, True.intro⟩
  | node l x h r, ⟨hh, hl, hr⟩ => by
    simp only [insert]
    split_ifs with h1 h2
    · exact hok_insert_fix (hok_insert d l hl) hr h d
    · exact hok_insert_fix hl (hok_insert d r hr) h d
    · exact ⟨hh, hl, hr⟩

theorem hok_remove : ∀ t, HeightsOk t → ∀ d, HeightsOk (remove t d)
  | leaf, _, _ => True.intro
  | node l x h r, ⟨hh, hkl, hkr⟩, d => by
    simp only [remove]
    split_ifs with hc1 hc2 hc3 hc4 hc5
    · exact hok_remove_fix (hok_remove l hkl d) hkr h
    · exact hok_remove_fix hkl (hok_remove r hkr d) h
    · exact True.intro
    · cases r with
      | leaf => exact True.intro
      | node rl q rh rr =>
        obtain ⟨_, h1, h2⟩ := hkr
        exact hok_remove_fix h1 h2 rh
    · cases l with
      | leaf => exact True.intro
      | node ll p lh lr =>
        obtain ⟨_, h1, h2⟩ := hkl
        exact hok_remove_fix h1 h2 lh
    · exact hok_remove_fix hkl (hok_remove r hkr (minData r)) h

theorem height_eq_realHeight : ∀ t, HeightsOk t →
    height t = (realHeight t : Int)
  | leaf, _ => by simp [height, realHeight]
  | node l x h r, ⟨hh, hl, hr⟩ => by
    simp only [height, realHeight]
    rw [hh, height_eq_realHeight l hl, height_eq_realHeight r hr]
    push_cast [Nat.cast_max]
    ring

theorem balancedReal_of : ∀ t, HeightsOk t → Balanced t → BalancedReal t
  | leaf, _, _ => True.intro
  | node l x h r, ⟨hh, hl, hr⟩, ⟨b1, b2, bl, br⟩ => by
    have e1 := height_eq_realHeight l hl
    have e2 := height_eq_realHeight r hr
    refine ⟨?_, ?_, balancedReal_of l hl bl, balancedReal_of r hr br⟩ <;> omega

theorem rotR_balance {a b r : SelfBalancingBinaryTree} {p x : Int}
    (hp h : Int) (hka : HeightsOk a) (hkb : HeightsOk b) (hkr : HeightsOk r)
    (hba : Balanced a) (hbb : Balanced b) (hbr : Balanced r)
    (hlean : height a = height b + 1 ∨ height a = height b)
    (hdrop : 1 + max (height a) (height b) = height r + 2) :
    Balanced (rotate_right (node (node a p hp b) x h r)) ∧
    HeightsOk (rotate_right (node (node a p hp b) x h r)) ∧
    (height (rotate_right (node (node a p hp b) x h r)) = height r + 2 ∨
      height (rotate_right (node (node a p hp b) x h r)) = height r + 3) ∧
    (height a = height b + 1 →
      height (rotate_right (node (node a p hp b) x h r)) = height r + 2) := by
  show Balanced (mkNode a p (mkNode b x r)) ∧
    HeightsOk (mkNode a p (mkNode b x r)) ∧
    (height (mkNode a p (mkNode b x r)) = height r + 2 ∨
      height (mkNode a p (mkNode b x r)) = height r + 3) ∧
    (height a = height b + 1 →
      height (mkNode a p (mkNode b x r)) = height r + 2)
  have hM : height (mkNode b x r) = 1 + max (height b) (height r) := rfl
  have hRoot : height (mkNode a p (mkNode b x r))
      = 1 + max (height a) (height (mkNode b x r)) := rfl
  have m1 := max_choice (height b) (height r)
  have m2 := le_max_left (height b) (height r)
  have m3 := le_max_right (height b) (height r)
  have m4 := max_choice (height a) (height (mkNode b x r))
  have m5 := le_max_left (height a) (height (mkNode b x r))
  have m6 := le_max_right (height a) (height (mkNode b x r))
  have m7 := max_choice (height a) (height b)
  have m8 := le_max_left (height a) (height b)
  have m9 := le_max_right (height a) (height b)
  have n1 := height_nonneg a hka
  have n2 := height_nonneg b hkb
  have n3 := height_nonneg r hkr
  exact ⟨⟨by omega, by omega, hba, by omega, by omega, hbb, hbr⟩,
    ⟨rfl, hka, rfl, hkb, hkr⟩, by omega, by omega⟩

theorem rotL_balance {l a b : SelfBalancingBinaryTree} {q x : Int}
    (hq h : Int) (hkl : HeightsOk l) (hka : HeightsOk a) (hkb : HeightsOk b)
    (hbl : Balanced l) (hba : Balanced a) (hbb : Balanced b)
    (hlean : height b = height a + 1 ∨ height b = height a)
    (hdrop : 1 + max (height a) (height b) = height l + 2) :
    Balanced (rotate_left (node l x h (node a q hq b))) ∧
    HeightsOk (rotate_left (node l x h (node a q hq b))) ∧
    (height (rotate_left (node l x h (node a q hq b))) = height l + 2 ∨
      height (rotate_left (node l x h (node a q hq b))) = height l + 3) ∧
    (height b = height a + 1 →
      height (rotate_left (node l x h (node a q hq b))) = height l + 2) := by
  show Balanced (mkNode (mkNode l x a) q b) ∧
    HeightsOk (mkNode (mkNode l x a) q b) ∧
    (height (mkNode (mkNode l x a) q b) = height l + 2 ∨
      height (mkNode (mkNode l x a) q b) = height l + 3) ∧
    (height b = height a + 1 →
      height (mkNode (mkNode l x a) q b) = height l + 2)
  have hM : height (mkNode l x a) = 1 + max (height l) (height a) := rfl
  have hRoot : height (mkNode (mkNode l x a) q b)
      = 1 + max (height (mkNode l x a)) (height b) := rfl
  have m1 := max_choice (height l) (height a)
  have m2 := le_max_left (height l) (height a)
  have m3 := le_max_right (height l) (height a)
  have m4 := max_choice (height (mkNode l x a)) (height b)
  have m5 := le_max_left (height (mkNode l x a)) (height b)
  have m6 := le_max_right (height (mkNode l x a)) (height b)
  have m7 := max_choice (height a) (height b)
  have m8 := le_max_left (height a) (height b)
  have m9 := le_max_right (height a) (height b)
  have n1 := height_nonneg l hkl
  have n2 := height_nonneg a hka
  have n3 := height_nonneg b hkb
  exact ⟨⟨by omega, by omega, ⟨by omega, by omega, hbl, hba⟩, hbb⟩,
    ⟨rfl, ⟨rfl, hkl, hka⟩, hkb⟩, by omega, by omega⟩

theorem rotLR_balance {a ba bb r : SelfBalancingBinaryTree} {p q x : Int}
    (hp qh h : Int) (hka : HeightsOk a) (hkba : HeightsOk ba)
    (hkbb : HeightsOk bb) (hkr : HeightsOk r) (hba2 : Balanced a)
    (hbba : Balanced ba) (hbbb : Balanced bb) (hbr : Balanced r)
    (hlean : max (height ba) (height bb) = height a)
    (hbalb1 : -1 ≤ height ba - height bb)
    (hbalb2 : height ba - height bb ≤ 1)
    (hdrop : height a = height r) :
    Balanced (rotate_right
      (node (rotate_left (node a p hp (node ba q qh bb))) x h r)) ∧
    HeightsOk (rotate_right
      (node (rotate_left (node a p hp (node ba q qh bb))) x h r)) ∧
    height (rotate_right
      (node (rotate_left (node a p hp (node ba q qh bb))) x h r))
      = height r + 2 := by
  show Balanced (mkNode (mkNode a p ba) q (mkNode bb x r)) ∧
    HeightsOk (mkNode (mkNode a p ba) q (mkNode bb x r)) ∧
    height (mkNode (mkNode a p ba) q (mkNode bb x r)) = height r + 2
  have hA : height (mkNode a p ba) = 1 + max (height a) (height ba) := rfl
  have hB : height (mkNode bb x r) = 1 + max (height bb) (height r) := rfl
  have hRoot : height (mkNode (mkNode a p ba) q (mkNode bb x r))
      = 1 + max (height (mkNode a p ba)) (height (mkNode bb x r)) := rfl
  have m1 := max_choice (height a) (height ba)
  have m2 := le_max_left (height a) (height ba)
  have m3 := le_max_right (height a) (height ba)
  have m4 := max_choice (height bb) (height r)
  have m5 := le_max_left (height bb) (height r)
  have m6 := le_max_right (height bb) (height r)
  have m7 := max_choice (height (mkNode a p ba)) (height (mkNode bb x r))
  have m8 := le_max_left (height (mkNode a p ba)) (height (mkNode bb x r))
  have m9 := le_max_right (height (mkNode a p ba)) (height (mkNode bb x r))
  have m10 := max_choice (height ba) (height bb)
  have m11 := le_max_left (height ba) (height bb)
  have m12 := le_max_right (height ba) (height bb)
  have n1 := height_nonneg a hka
  have n2 := height_nonneg ba hkba
  have n3 := height_nonneg bb hkbb
  have n4 := height_nonneg r hkr
  exact ⟨⟨by omega, by omega, ⟨by omega, by omega, hba2, hbba⟩,
      by omega, by omega, hbbb, hbr⟩,
    ⟨rfl, ⟨rfl, hka, hkba⟩, rfl, hkbb, hkr⟩, by omega⟩

theorem rotRL_balance {l ba bb c : SelfBalancingBinaryTree} {p q x : Int}
    (hp qh h : Int) (hkl : HeightsOk l) (hkba : HeightsOk ba)
    (hkbb : HeightsOk bb) (hkc : HeightsOk c) (hbl : Balanced l)
    (hbba : Balanced ba) (hbbb : Balanced bb) (hbc : Balanced c)
    (hlean : max (height ba) (height bb) = height c)
    (hbalb1 : -1 ≤ height ba - height bb)
    (hbalb2 : height ba - height bb ≤ 1)
    (hdrop : height c = height l) :
    Balanced (rotate_left
      (node l x h (rotate_right (node (node ba q qh bb) p hp c)))) ∧
    HeightsOk (rotate_left
      (node l x h (rotate_right (node (node ba q qh bb) p hp c)))) ∧
    height (rotate_left
      (node l x h (rotate_right (node (node ba q qh bb) p hp c))))
      = height l + 2 := by
  show Balanced (mkNode (mkNode l x ba) q (mkNode bb p c)) ∧
    HeightsOk (mkNode (mkNode l x ba) q (mkNode bb p c)) ∧
    height (mkNode (mkNode l x ba) q (mkNode bb p c)) = height l + 2
  have hA : height (mkNode l x ba) = 1 + max (height l) (height ba) := rfl
  have hB : height (mkNode bb p c) = 1 + max (height bb) (height c) := rfl
  have hRoot : height (mkNode (mkNode l x ba) q (mkNode bb p c))
      = 1 + max (height (mkNode l x ba)) (height (mkNode bb p c)) := rfl
  have m1 := max_choice (height l) (height ba)
  have m2 := le_max_left (height l) (height ba)
  have m3 := le_max_right (height l) (height ba)
  have m4 := max_choice (height bb) (height c)
  have m5 := le_max_left (height bb) (height c)
  have m6 := le_max_right (height bb) (height c)
  have m7 := max_choice (height (mkNode l x ba)) (height (mkNode bb p c))
  have m8 := le_max_left (height (mkNode l x ba)) (height (mkNode bb p c))
  have m9 := le_max_right (height (mkNode l x ba)) (height (mkNode bb p c))
  have m10 := max_choice (height ba) (height bb)
  have m11 := le_max_left (height ba) (height bb)
  have m12 := le_max_right (height ba) (height bb)
  have n1 := height_nonneg l hkl
  have n2 := height_nonneg ba hkba
  have n3 := height_nonneg bb hkbb
  have n4 := height_nonneg c hkc
  exact ⟨⟨by omega, by omega, ⟨by omega, by omega, hbl, hbba⟩,
      by omega, by omega, hbbb, hbc⟩,
    ⟨rfl, ⟨rfl, hkl, hkba⟩, rfl, hkbb, hkc⟩, by omega⟩

/-- Balance preservation and height evolution of `insert`: the result is
balanced, the height grows by at most one, and when it does grow on a
non-empty tree the new root leans strictly towards the side holding the
inserted key.  The lean is what justifies the key-comparison gating of the
four rotation cases one level up. -/
theorem insert_bal : ∀ t, HeightsOk t → Balanced t → ∀ d,
    Balanced (insert t d) ∧
    (height (insert t d) = height t ∨
      (height (insert t d) = height t + 1 ∧
        (t = leaf ∨ ∃ a p hp b, insert t d = node a p hp b ∧
          ((d < p ∧ height a = height b + 1) ∨
            (p < d ∧ height b = height a + 1)))))
  | leaf, _, _, d =>
    ⟨⟨by simp only [insert, height_leaf, height_node]; omega,
        by simp only [insert, height_leaf, height_node]; omega,
        True.intro, True.intro⟩,
      Or.inr ⟨by simp only [insert, height_leaf, height_node]; omega,
        Or.inl rfl⟩⟩
  | node l x h r, ⟨hh, hkl, hkr⟩, ⟨hb1, hb2, hbl, hbr⟩, d => by
    have nL := height_nonneg l hkl
    have nR := height_nonneg r hkr
    rcases lt_trichotomy d x with hdx | hdx | hdx
    · simp only [insert]
      rw [if_pos hdx]
      obtain ⟨hbal2, hdich⟩ := insert_bal l hkl hbl d
      have hk2 : HeightsOk (insert l d) := hok_insert d l hkl
      have nL2 := height_nonneg _ hk2
      have hg1 : height l ≤ height (insert l d) := by
        rcases hdich with hsame | ⟨hg, _⟩ <;> omega
      have hg2 : height (insert l d) ≤ height l + 1 := by
        rcases hdich with hsame | ⟨hg, _⟩ <;> omega
      by_cases hcase : height (insert l d) - height r ≤ 1
      · have g1 : ¬(height (insert l d) - height r > 1 ∧
            d < data0 (insert l d)) := fun hc => absurd hc.1 (by omega)
        have g2 : ¬(height (insert l d) - height r < -1 ∧
            d > data0 r) := fun hc => absurd hc.1 (by omega)
        have g3 : ¬(height (insert l d) - height r > 1 ∧
            d > data0 (insert l d)) := fun hc => absurd hc.1 (by omega)
        have g4 : ¬(height (insert l d) - height r < -1 ∧
            d < data0 r) := fun hc => absurd hc.1 (by omega)
        simp only [insert_fix]
        rw [if_neg g1, if_neg g2, if_neg g3, if_neg g4]
        refine ⟨⟨by omega, by omega, hbal2, hbr⟩, ?_⟩
        by_cases hEq : 1 + max (height (insert l d)) (height r) = h
        · left
          simp only [height_leaf, height_node]
          exact hEq
        · right
          refine ⟨by simp only [height_leaf, height_node]; omega, Or.inr
            ⟨insert l d, x, 1 + max (height (insert l d)) (height r), r, rfl,
              Or.inl ⟨hdx, by omega⟩⟩⟩
      · have hbf : height (insert l d) - height r = 2 := by omega
        have hgrow2 : height (insert l d) = height l + 1 := by omega
        rcases hdich with hsame | ⟨_, halign⟩
        · exact absurd hsame (by omega)
        rcases halign with hleafl | ⟨a, p, hp, b, heq, hside⟩
        · exfalso
          subst hleafl
          have hone : height (insert leaf d) = 1 := by
            simp only [insert, height_node]
          omega
        · rw [heq] at hbal2 hk2 hbf hgrow2 ⊢
          obtain ⟨c1, c2, hBa, hBb⟩ := hbal2
          obtain ⟨hpEq, hKa, hKb⟩ := hk2
          simp only [height_leaf, height_node] at hbf hgrow2
          have nA := height_nonneg a hKa
          have nB := height_nonneg b hKb
          rcases hside with ⟨hdp, hab⟩ | ⟨hdp, hab⟩
          · have g1 : height (node a p hp b) - height r > 1 ∧
                d < data0 (node a p hp b) :=
              ⟨by simp only [height_leaf, height_node]; omega, by simp only [data0_node]; exact hdp⟩
            simp only [insert_fix]
            rw [if_pos g1]
            obtain ⟨B1, B2, B3, B4⟩ := rotR_balance hp
              (1 + max hp (height r))
              hKa hKb hkr hBa hBb hbr (Or.inl hab) (by omega)
            have hres := B4 hab
            refine ⟨B1, Or.inl ?_⟩
            simp only [height_leaf, height_node]
            omega
          · cases b with
            | leaf =>
              exact absurd hab (by simp only [height_leaf, height_node]; omega)
            | node ba q qh bb =>
              obtain ⟨hqhEq, hKba, hKbb⟩ := hKb
              obtain ⟨cb1, cb2, hBba, hBbb⟩ := hBb
              simp only [height_leaf, height_node] at hab c1 c2
              have g1 : ¬(height (node a p hp (node ba q qh bb)) - height r > 1 ∧
                  d < data0 (node a p hp (node ba q qh bb))) :=
                fun hc => absurd hc.2 (by simp only [data0_node]; omega)
              have g2 : ¬(height (node a p hp (node ba q qh bb)) - height r < -1 ∧
                  d > data0 r) :=
                fun hc => absurd hc.1 (by simp only [height_leaf, height_node]; omega)
              have g3 : height (node a p hp (node ba q qh bb)) - height r > 1 ∧
                  d > data0 (node a p hp (node ba q qh bb)) :=
                ⟨by simp only [height_leaf, height_node]; omega, by simp only [data0_node]; omega⟩
              simp only [insert_fix]
              rw [if_neg g1, if_neg g2, if_pos g3]
              have nBa := height_nonneg ba hKba
              have nBb := height_nonneg bb hKbb
              simp only [height_leaf, height_node] at hpEq
              obtain ⟨B1, B2, B3⟩ := rotLR_balance hp qh
                (1 + max hp (height r))
                hKa hKba hKbb hkr hBa hBba hBbb hbr
                (by omega) (by omega) (by omega) (by omega)
              refine ⟨B1, Or.inl ?_⟩
              simp only [height_leaf, height_node]
              omega
    · subst hdx
      simp only [insert]
      rw [if_neg (lt_irrefl d), if_neg (lt_irrefl d)]
      exact ⟨⟨hb1, hb2, hbl, hbr⟩, Or.inl rfl⟩
    · simp only [insert]
      rw [if_neg (by omega : ¬ d < x), if_pos hdx]
      obtain ⟨hbal2, hdich⟩ := insert_bal r hkr hbr d
      have hk2 : HeightsOk (insert r d) := hok_insert d r hkr
      have nR2 := height_nonneg _ hk2
      have hg1 : height r ≤ height (insert r d) := by
        rcases hdich with hsame | ⟨hg, _⟩ <;> omega
      have hg2 : height (insert r d) ≤ height r + 1 := by
        rcases hdich with hsame | ⟨hg, _⟩ <;> omega
      by_cases hcase : height l - height (insert r d) ≥ -1
      · have g1 : ¬(height l - height (insert r d) > 1 ∧
            d < data0 l) := fun hc => absurd hc.1 (by omega)
        have g2 : ¬(height l - height (insert r d) < -1 ∧
            d > data0 (insert r d)) := fun hc => absurd hc.1 (by omega)
        have g3 : ¬(height l - height (insert r d) > 1 ∧
            d > data0 l) := fun hc => absurd hc.1 (by omega)
        have g4 : ¬(height l - height (insert r d) < -1 ∧
            d < data0 (insert r d)) := fun hc => absurd hc.1 (by omega)
        simp only [insert_fix]
        rw [if_neg g1, if_neg g2, if_neg g3, if_neg g4]
        refine ⟨⟨by omega, by omega, hbl, hbal2⟩, ?_⟩
        by_cases hEq : 1 + max (height l) (height (insert r d)) = h
        · left
          simp only [height_leaf, height_node]
          exact hEq
        · right
          refine ⟨by simp only [height_leaf, height_node]; omega, Or.inr
            ⟨l, x, 1 + max (height l) (height (insert r d)), insert r d, rfl,
              Or.inr ⟨hdx, by omega⟩⟩⟩
      · have hbf : height l - height (insert r d) = -2 := by omega
        have hgrow2 : height (insert r d) = height r + 1 := by omega
        rcases hdich with hsame | ⟨_, halign⟩
        · exact absurd hsame (by omega)
        rcases halign with hleafr | ⟨a, p, hp, b, heq, hside⟩
        · exfalso
          subst hleafr
          have hone : height (insert leaf d) = 1 := by
            simp only [insert, height_node]
          omega
        · rw [heq] at hbal2 hk2 hbf hgrow2 ⊢
          obtain ⟨c1, c2, hBa, hBb⟩ := hbal2
          obtain ⟨hpEq, hKa, hKb⟩ := hk2
          simp only [height_leaf, height_node] at hbf hgrow2
          have nA := height_nonneg a hKa
          have nB := height_nonneg b hKb
          rcases hside with ⟨hdp, hab⟩ | ⟨hdp, hab⟩
          · cases a with
            | leaf =>
              exact absurd hab (by simp only [height_leaf, height_node]; omega)
            | node ba q qh bb =>
              obtain ⟨hqhEq, hKba, hKbb⟩ := hKa
              obtain ⟨ca1, ca2, hBba, hBbb⟩ := hBa
              simp only [height_leaf, height_node] at hab c1 c2
              have g1 : ¬(height l - height (node (node ba q qh bb) p hp b) > 1 ∧
                  d < data0 l) :=
                fun hc => absurd hc.1 (by simp only [height_leaf, height_node]; omega)
              have g2 : ¬(height l - height (node (node ba q qh bb) p hp b) < -1 ∧
                  d > data0 (node (node ba q qh bb) p hp b)) :=
                fun hc => absurd hc.2 (by simp only [data0_node]; omega)
              have g3 : ¬(height l - height (node (node ba q qh bb) p hp b) > 1 ∧
                  d > data0 l) :=
                fun hc => absurd hc.1 (by simp only [height_leaf, height_node]; omega)
              have g4 : height l - height (node (node ba q qh bb) p hp b) < -1 ∧
                  d < data0 (node (node ba q qh bb) p hp b) :=
                ⟨by simp only [height_leaf, height_node]; omega, by simp only [data0_node]; omega⟩
              simp only [insert_fix]
              rw [if_neg g1, if_neg g2, if_neg g3, if_pos g4]
              have nBa := height_nonneg ba hKba
              have nBb := height_nonneg bb hKbb
              simp only [height_leaf, height_node] at hpEq
              obtain ⟨B1, B2, B3⟩ := rotRL_balance hp qh
                (1 + max (height l) hp)
                hkl hKba hKbb hKb hbl hBba hBbb hBb
                (by omega) (by omega) (by omega) (by omega)
              refine ⟨B1, Or.inl ?_⟩
              simp only [height_leaf, height_node]
              omega
          · cases b with
            | leaf =>
              exact absurd hab (by simp only [height_leaf, height_node]; omega)
            | node ba q qh bb =>
              have g1 : ¬(height l - height (node a p hp (node ba q qh bb)) > 1 ∧
                  d < data0 l) :=
                fun hc => absurd hc.1 (by simp only [height_leaf, height_node]; omega)
              have g2 : height l - height (node a p hp (node ba q qh bb)) < -1 ∧
                  d > data0 (node a p hp (node ba q qh bb)) :=
                ⟨by simp only [height_leaf, height_node]; omega, by simp only [data0_node]; exact hdp⟩
              simp only [insert_fix]
              rw [if_neg g1, if_pos g2]
              simp only [height_leaf, height_node] at hab
              obtain ⟨B1, B2, B3, B4⟩ := rotL_balance hp
                (1 + max (height l) hp)
                hkl hKa hKb hbl hBa hBb (Or.inl hab) (by omega)
              have hres := B4 hab
              refine ⟨B1, Or.inl ?_⟩
              simp only [height_leaf, height_node]
              omega

theorem balance_factor_leaf : balance_factor leaf = 0 := rfl

theorem balance_factor_node (l : SelfBalancingBinaryTree) (x h : Int)
    (r : SelfBalancingBinaryTree) :
    balance_factor (node l x h r) = height l - height r := rfl

/-- Balance restoration of the rebalancing tail of `remove`: on a node
whose children are valid and whose balance factor is within `[-2, 2]`, the
result is balanced, its height is `max` or `1 + max` of the children's
heights, and when the balance factor is already within `[-1, 1]` the node
is returned with only its height recomputed. -/
theorem remove_fix_bal {l r : SelfBalancingBinaryTree} {x : Int} (h : Int)
    (hkl : HeightsOk l) (hkr : HeightsOk r)
    (hbl : Balanced l) (hbr : Balanced r)
    (hc1 : -2 ≤ height l - height r) (hc2 : height l - height r ≤ 2) :
    Balanced (remove_fix (node l x h r)) ∧
    HeightsOk (remove_fix (node l x h r)) ∧
    (height (remove_fix (node l x h r)) = 1 + max (height l) (height r) ∨
      height (remove_fix (node l x h r)) = max (height l) (height r)) ∧
    (-1 ≤ height l - height r → height l - height r ≤ 1 →
      remove_fix (node l x h r) = node l x (1 + max (height l) (height r)) r) := by
  have nL := height_nonneg l hkl
  have nR := height_nonneg r hkr
  simp only [remove_fix]
  split_ifs with g1 g2 g3 g4
  · cases l with
    | leaf => exact absurd g1.1 (by simp only [height_leaf]; omega)
    | node a p hp b =>
      obtain ⟨hpEq, hKa, hKb⟩ := hkl
      obtain ⟨c1, c2, hBa, hBb⟩ := hbl
      simp only [height_node] at g1 hc1 hc2 nL ⊢
      simp only [balance_factor_node] at g1
      obtain ⟨B1, B2, B3, B4⟩ := rotR_balance hp (1 + max hp (height r))
        hKa hKb hkr hBa hBb hbr (by omega) (by omega)
      refine ⟨B1, B2, ?_, fun hA hB => absurd g1.1 (by omega)⟩
      rcases B3 with h3 | h3
      · right; omega
      · left; omega
  · cases l with
    | leaf => exact absurd g2.1 (by simp only [height_leaf]; omega)
    | node a p hp b =>
      obtain ⟨hpEq, hKa, hKb⟩ := hkl
      obtain ⟨c1, c2, hBa, hBb⟩ := hbl
      simp only [height_node] at g2 hc1 hc2 nL ⊢
      simp only [balance_factor_node] at g2
      cases b with
      | leaf =>
        exact absurd g2.2 (by
          simp only [height_leaf, height_node]
          have := height_nonneg a hKa
          omega)
      | node ba q qh bb =>
        obtain ⟨hqhEq, hKba, hKbb⟩ := hKb
        obtain ⟨cb1, cb2, hBba, hBbb⟩ := hBb
        simp only [height_node] at g2 c1 c2 hpEq
        have nA := height_nonneg a hKa
        obtain ⟨B1, B2, B3⟩ := rotLR_balance hp qh (1 + max hp (height r))
          hKa hKba hKbb hkr hBa hBba hBbb hbr
          (by omega) (by omega) (by omega) (by omega)
        refine ⟨B1, B2, ?_, fun hA hB => absurd g2.1 (by omega)⟩
        right
        omega
  · cases r with
    | leaf => exact absurd g3.1 (by simp only [height_leaf]; omega)
    | node a q hq b =>
      obtain ⟨hqEq, hKa, hKb⟩ := hkr
      obtain ⟨c1, c2, hBa, hBb⟩ := hbr
      simp only [height_node] at g3 hc1 hc2 nR ⊢
      simp only [balance_factor_node] at g3
      obtain ⟨B1, B2, B3, B4⟩ := rotL_balance hq (1 + max (height l) hq)
        hkl hKa hKb hbl hBa hBb (by omega) (by omega)
      refine ⟨B1, B2, ?_, fun hA hB => absurd g3.1 (by omega)⟩
      rcases B3 with h3 | h3
      · right; omega
      · left; omega
  · cases r with
    | leaf => exact absurd g4.1 (by simp only [height_leaf]; omega)
    | node a p hp b =>
      obtain ⟨hpEq, hKa, hKb⟩ := hkr
      obtain ⟨c1, c2, hBa, hBb⟩ := hbr
      simp only [height_node] at g4 hc1 hc2 nR ⊢
      simp only [balance_factor_node] at g4
      cases a with
      | leaf =>
        exact absurd g4.2 (by
          simp only [height_leaf, height_node]
          have := height_nonneg b hKb
          omega)
      | node ba q qh bb =>
        obtain ⟨hqhEq, hKba, hKbb⟩ := hKa
        obtain ⟨ca1, ca2, hBba, hBbb⟩ := hBa
        simp only [height_node] at g4 c1 c2 hpEq
        have nB := height_nonneg b hKb
        obtain ⟨B1, B2, B3⟩ := rotRL_balance hp qh (1 + max (height l) hp)
          hkl hKba hKbb hKb hbl hBba hBbb hBb
          (by omega) (by omega) (by omega) (by omega)
        refine ⟨B1, B2, ?_, fun hA hB => absurd g4.1 (by omega)⟩
        right
        omega
  · have hble : height l - height r ≤ 1 := by
      by_contra hgt
      rcases le_or_lt 0 (balance_factor l) with hge | hlt
      · exact g1 ⟨by omega, hge⟩
      · exact g2 ⟨by omega, hlt⟩
    have hbge : -1 ≤ height l - height r := by
      by_contra hlt2
      rcases le_or_lt (balance_factor r) 0 with hge | hlt
      · exact g3 ⟨by omega, hge⟩
      · exact g4 ⟨by omega, hlt⟩
    exact ⟨⟨by omega, by omega, hbl, hbr⟩, ⟨rfl, hkl, hkr⟩,
      Or.inl (by simp only [height_node]), fun _ _ => rfl⟩

/-- Balance preservation and height evolution of `remove`: the result is
balanced and the height shrinks by at most one. -/
theorem remove_bal : ∀ t, HeightsOk t → Balanced t → ∀ d,
    Balanced (remove t d) ∧
    (height (remove t d) = height t ∨ height (remove t d) = height t - 1)
  | leaf, _, _, _ => ⟨True.intro, Or.inl rfl⟩
  | node l x h r, ⟨hh, hkl, hkr⟩, ⟨hb1, hb2, hbl, hbr⟩, d => by
    have nL := height_nonneg l hkl
    have nR := height_nonneg r hkr
    simp only [remove]
    rcases lt_trichotomy d x with hdx | hdx | hdx
    · rw [if_pos hdx]
      obtain ⟨hbal2, hdich⟩ := remove_bal l hkl hbl d
      have hk2 : HeightsOk (remove l d) := hok_remove l hkl d
      have nL2 := height_nonneg _ hk2
      have hg1 : height l - 1 ≤ height (remove l d) := by
        rcases hdich with hg | hg <;> omega
      have hg2 : height (remove l d) ≤ height l := by
        rcases hdich with hg | hg <;> omega
      obtain ⟨R1, R2, R3, R4⟩ := remove_fix_bal h hk2 hkr hbal2 hbr
        (by omega) (by omega)
      by_cases hin : -1 ≤ height (remove l d) - height r ∧
          height (remove l d) - height r ≤ 1
      · rw [R4 hin.1 hin.2]
        refine ⟨⟨by omega, by omega, hbal2, hbr⟩, ?_⟩
        simp only [height_node]
        omega
      · refine ⟨R1, ?_⟩
        have hout : height (remove l d) - height r = -2 := by omega
        rcases R3 with h3 | h3 <;> simp only [height_node] <;> omega
    · subst hdx
      rw [if_neg (lt_irrefl d), if_neg (lt_irrefl d)]
      by_cases hl0 : l = leaf
      · rw [if_pos hl0]
        by_cases hr0 : r = leaf
        · rw [if_pos hr0]
          subst hl0; subst hr0
          refine ⟨True.intro, Or.inr ?_⟩
          simp only [height_leaf, height_node] at hh ⊢
          omega
        · rw [if_neg hr0]
          subst hl0
          cases r with
          | leaf => exact absurd rfl hr0
          | node rl q rh rr =>
            obtain ⟨rhEq, hK1, hK2⟩ := hkr
            obtain ⟨d1, d2, hB1, hB2⟩ := hbr
            rw [remove_fix_id rhEq d1 d2]
            refine ⟨⟨d1, d2, hB1, hB2⟩, Or.inr ?_⟩
            simp only [height_leaf, height_node] at hh nR ⊢
            omega
      · rw [if_neg hl0]
        by_cases hr0 : r = leaf
        · rw [if_pos hr0]
          subst hr0
          cases l with
          | leaf => exact absurd rfl hl0
          | node ll q lh lr =>
            obtain ⟨lhEq, hK1, hK2⟩ := hkl
            obtain ⟨d1, d2, hB1, hB2⟩ := hbl
            rw [remove_fix_id lhEq d1 d2]
            refine ⟨⟨d1, d2, hB1, hB2⟩, Or.inr ?_⟩
            simp only [height_leaf, height_node] at hh nL ⊢
            omega
        · rw [if_neg hr0]
          obtain ⟨hbal2, hdich⟩ := remove_bal r hkr hbr (minData r)
          have hk2 : HeightsOk (remove r (minData r)) :=
            hok_remove r hkr (minData r)
          have nR2 := height_nonneg _ hk2
          have hg1 : height r - 1 ≤ height (remove r (minData r)) := by
            rcases hdich with hg | hg <;> omega
          have hg2 : height (remove r (minData r)) ≤ height r := by
            rcases hdich with hg | hg <;> omega
          obtain ⟨R1, R2, R3, R4⟩ := remove_fix_bal h hkl hk2 hbl hbal2
            (by omega) (by omega)
          by_cases hin : -1 ≤ height l - height (remove r (minData r)) ∧
              height l - height (remove r (minData r)) ≤ 1
          · rw [R4 hin.1 hin.2]
            refine ⟨⟨by omega, by omega, hbl, hbal2⟩, ?_⟩
            simp only [height_node]
            omega
          · refine ⟨R1, ?_⟩
            have hout : height l - height (remove r (minData r)) = 2 := by omega
            rcases R3 with h3 | h3 <;> simp only [height_node] <;> omega
    · rw [if_neg (by omega : ¬ d < x), if_pos hdx]
      obtain ⟨hbal2, hdich⟩ := remove_bal r hkr hbr d
      have hk2 : HeightsOk (remove r d) := hok_remove r hkr d
      have nR2 := height_nonneg _ hk2
      have hg1 : height r - 1 ≤ height (remove r d) := by
        rcases hdich with hg | hg <;> omega
      have hg2 : height (remove r d) ≤ height r := by
        rcases hdich with hg | hg <;> omega
      obtain ⟨R1, R2, R3, R4⟩ := remove_fix_bal h hkl hk2 hbl hbal2
        (by omega) (by omega)
      by_cases hin : -1 ≤ height l - height (remove r d) ∧
          height l - height (remove r d) ≤ 1
      · rw [R4 hin.1 hin.2]
        refine ⟨⟨by omega, by omega, hbl, hbal2⟩, ?_⟩
        simp only [height_node]
        omega
      · refine ⟨R1, ?_⟩
        have hout : height l - height (remove r d) = 2 := by omega
        rcases R3 with h3 | h3 <;> simp only [height_node] <;> omega

/-- The guarded rebalancing tail of `insert` succeeds and agrees with the
unguarded one whenever the children shapes demanded by the firing guards
are present. -/
theorem insert_fixChk_eq {l r : SelfBalancingBinaryTree} {x : Int} (h d : Int)
    (h1 : height l - height r > 1 → l ≠ leaf)
    (h2 : ∀ a p hp b, l = node a p hp b → height l - height r > 1 →
      p < d → b ≠ leaf)
    (h3 : height l - height r < -1 → r ≠ leaf)
    (h4 : ∀ a p hp b, r = node a p hp b → height l - height r < -1 →
      d < p → a ≠ leaf) :
    insert_fixChk (node l x h r) d = some (insert_fix (node l x h r) d) := by
  simp only [insert_fixChk, insert_fix]
  split_ifs with g1 g2 g3 g4
  · cases l with
    | leaf => exact absurd rfl (h1 g1.1)
    | node a p hp b => rfl
  · cases r with
    | leaf => exact absurd rfl (h3 g2.1)
    | node a p hp b => rfl
  · cases l with
    | leaf => exact absurd rfl (h1 g3.1)
    | node a p hp b =>
      have hpd : p < d := by
        have := g3.2
        simp only [data0_node] at this
        omega
      cases b with
      | leaf => exact absurd rfl (h2 a p hp leaf rfl g3.1 hpd)
      | node ba q qh bb => rfl
  · cases r with
    | leaf => exact absurd rfl (h3 g4.1)
    | node a p hp b =>
      have hdp : d < p := by
        have := g4.2
        simp only [data0_node] at this
        omega
      cases a with
      | leaf => exact absurd rfl (h4 leaf p hp b rfl g4.1 hdp)
      | node ba q qh bb => rfl
  · rfl

/-- On valid trees the guarded `insert` never hits a missing rotation
child: it succeeds and agrees with the unguarded `insert`. -/
theorem insertChk_eq : ∀ t, HeightsOk t → Balanced t → ∀ d,
    insertChk t d = some (insert t d)
  | leaf, _, _, _ => rfl
  | node l x h r, ⟨hh, hkl, hkr⟩, ⟨hb1, hb2, hbl, hbr⟩, d => by
    have nL := height_nonneg l hkl
    have nR := height_nonneg r hkr
    simp only [insertChk, insert]
    rcases lt_trichotomy d x with hdx | hdx | hdx
    · rw [if_pos hdx, if_pos hdx, insertChk_eq l hkl hbl d, Option.some_bind]
      have hk2 : HeightsOk (insert l d) := hok_insert d l hkl
      have n2 := height_nonneg _ hk2
      obtain ⟨_, hdich⟩ := insert_bal l hkl hbl d
      have hg1 : height l ≤ height (insert l d) := by
        rcases hdich with hsame | ⟨hg, _⟩ <;> omega
      apply insert_fixChk_eq
      · intro hbf hleaf
        rw [hleaf] at hbf
        simp only [height_leaf] at hbf
        omega
      · intro a p hp b heq hbf hpd hbleaf
        rcases hdich with hsame | ⟨hgrow, halign⟩
        · rw [heq] at hsame
          simp only [height_node] at hsame
          rw [heq] at hbf
          simp only [height_node] at hbf
          omega
        · rcases halign with hleafl | ⟨a2, p2, hp2, b2, heq2, hside⟩
          · subst hleafl
            have : (node leaf d 1 leaf : SelfBalancingBinaryTree)
                = node a p hp b := heq
            injection this with e1 e2 e3 e4
            rw [heq] at hbf
            simp only [height_node] at hbf
            omega
          · rw [heq] at heq2
            injection heq2 with e1 e2 e3 e4
            subst e1; subst e2; subst e3; subst e4
            rcases hside with ⟨hlt, _⟩ | ⟨hlt, hlen⟩
            · omega
            · rw [heq] at hk2
              obtain ⟨_, hKa, hKb⟩ := hk2
              have := height_nonneg a hKa
              rw [hbleaf] at hlen
              simp only [height_leaf] at hlen
              omega
      · intro hbf hrleaf
        rw [hrleaf] at hbf
        simp only [height_leaf] at hbf
        omega
      · intro a p hp b heq hbf hdp
        exact absurd hbf (by omega)
    · subst hdx
      rw [if_neg (lt_irrefl d), if_neg (lt_irrefl d), if_neg (lt_irrefl d),
        if_neg (lt_irrefl d)]
    · rw [if_neg (by omega : ¬ d < x), if_neg (by omega : ¬ d < x),
        if_pos hdx, if_pos hdx, insertChk_eq r hkr hbr d, Option.some_bind]
      have hk2 : HeightsOk (insert r d) := hok_insert d r hkr
      have n2 := height_nonneg _ hk2
      obtain ⟨_, hdich⟩ := insert_bal r hkr hbr d
      have hg1 : height r ≤ height (insert r d) := by
        rcases hdich with hsame | ⟨hg, _⟩ <;> omega
      apply insert_fixChk_eq
      · intro hbf hleaf
        exact absurd hbf (by omega)
      · intro a p hp b heq hbf hpd
        exact absurd hbf (by omega)
      · intro hbf hrleaf
        rw [hrleaf] at hbf
        simp only [height_leaf] at hbf
        omega
      · intro a p hp b heq hbf hdp haleaf
        rcases hdich with hsame | ⟨hgrow, halign⟩
        · rw [heq] at hsame
          simp only [height_node] at hsame
          rw [heq] at hbf
          simp only [height_node] at hbf
          omega
        · rcases halign with hleafr | ⟨a2, p2, hp2, b2, heq2, hside⟩
          · subst hleafr
            have : (node leaf d 1 leaf : SelfBalancingBinaryTree)
                = node a p hp b := heq
            injection this with e1 e2 e3 e4
            rw [heq] at hbf
            simp only [height_node] at hbf
            omega
          · rw [heq] at heq2
            injection heq2 with e1 e2 e3 e4
            subst e1; subst e2; subst e3; subst e4
            rcases hside with ⟨hlt, hlen⟩ | ⟨hlt, _⟩
            · rw [heq] at hk2
              obtain ⟨_, hKa, hKb⟩ := hk2
              have := height_nonneg b hKb
              rw [haleaf] at hlen
              simp only [height_leaf] at hlen
              omega
            · omega

/-- The guarded rebalancing tail of `remove` succeeds and agrees with the
unguarded one on any node with valid children: the balance-factor gating
itself guarantees the children shapes the rotations need. -/
theorem remove_fixChk_eq {l r : SelfBalancingBinaryTree} {x : Int} (h : Int)
    (hkl : HeightsOk l) (hkr : HeightsOk r) :
    remove_fixChk (node l x h r) = some (remove_fix (node l x h r)) := by
  have nL := height_nonneg l hkl
  have nR := height_nonneg r hkr
  simp only [remove_fixChk, remove_fix]
  split_ifs with g1 g2 g3 g4
  · cases l with
    | leaf => exact absurd g1.1 (by simp only [height_leaf]; omega)
    | node a p hp b => rfl
  · cases l with
    | leaf => exact absurd g2.1 (by simp only [height_leaf]; omega)
    | node a p hp b =>
      obtain ⟨_, hKa, hKb⟩ := hkl
      have na := height_nonneg a hKa
      cases b with
      | leaf =>
        exact absurd g2.2 (by
          simp only [balance_factor_node, height_leaf]
          omega)
      | node ba q qh bb => rfl
  · cases r with
    | leaf => exact absurd g3.1 (by simp only [height_leaf]; omega)
    | node a p hp b => rfl
  · cases r with
    | leaf => exact absurd g4.1 (by simp only [height_leaf]; omega)
    | node a p hp b =>
      obtain ⟨_, hKa, hKb⟩ := hkr
      have nb := height_nonneg b hKb
      cases a with
      | leaf =>
        exact absurd g4.2 (by
          simp only [balance_factor_node, height_leaf]
          omega)
      | node ba q qh bb => rfl
  · rfl

/-- On trees with valid stored heights the guarded `remove` never hits a
missing rotation child: it succeeds and agrees with the unguarded
`remove`. -/
theorem removeChk_eq : ∀ t, HeightsOk t → ∀ d,
    removeChk t d = some (remove t d)
  | leaf, _, _ => rfl
  | node l x h r, ⟨hh, hkl, hkr⟩, d => by
    simp only [removeChk, remove]
    rcases lt_trichotomy d x with hdx | hdx | hdx
    · rw [if_pos hdx, if_pos hdx, removeChk_eq l hkl d, Option.some_bind]
      exact remove_fixChk_eq h (hok_remove l hkl d) hkr
    · subst hdx
      rw [if_neg (lt_irrefl d), if_neg (lt_irrefl d), if_neg (lt_irrefl d),
        if_neg (lt_irrefl d)]
      by_cases hl0 : l = leaf
      · rw [if_pos hl0, if_pos hl0]
        by_cases hr0 : r = leaf
        · rw [if_pos hr0, if_pos hr0]
        · rw [if_neg hr0, if_neg hr0]
          cases r with
          | leaf => exact absurd rfl hr0
          | node rl q rh rr =>
            obtain ⟨_, hK1, hK2⟩ := hkr
            exact remove_fixChk_eq rh hK1 hK2
      · rw [if_neg hl0, if_neg hl0]
        by_cases hr0 : r = leaf
        · rw [if_pos hr0, if_pos hr0]
          cases l with
          | leaf => exact absurd rfl hl0
          | node ll q lh lr =>
            obtain ⟨_, hK1, hK2⟩ := hkl
            exact remove_fixChk_eq lh hK1 hK2
        · rw [if_neg hr0, if_neg hr0,
            removeChk_eq r hkr (minData r), Option.some_bind]
          exact remove_fixChk_eq h hkl (hok_remove r hkr (minData r))
    · rw [if_neg (by omega : ¬ d < x), if_neg (by omega : ¬ d < x),
        if_pos hdx, if_pos hdx, removeChk_eq r hkr d, Option.some_bind]
      exact remove_fixChk_eq h hkl (hok_remove r hkr d)

theorem insert_fixC_fst : ∀ t d, (insert_fixC t d).1 = insert_fix t d
  | leaf, _ => rfl
  | node l x h r, d => by
    simp only [insert_fixC, insert_fix]
    split_ifs <;> rfl

theorem insertC_fst : ∀ t d, (insertC t d).1 = insert t d
  | leaf, _ => rfl
  | node l x h r, d => by
    simp only [insertC, insert]
    split_ifs with h1 h2
    · rw [insert_fixC_fst, insertC_fst l d]
    · rw [insert_fixC_fst, insertC_fst r d]
    · rfl

theorem foldl_preserve {P : SelfBalancingBinaryTree → Prop}
    (hins : ∀ t d, P t → P (insert t d))
    (hdel : ∀ t d, P t → P (remove t d)) :
    ∀ (ops : List Op) t, P t → P (List.foldl applyOp t ops)
  | [], _, h => h
  | op :: ops, t, h => by
    show P (List.foldl applyOp (applyOp t op) ops)
    refine foldl_preserve hins hdel ops _ ?_
    cases op with
    | ins k => exact hins t k h
    | del k => exact hdel t k h
    | find k => exact h

theorem runOps_ordered (ops : List Op) : Ordered (runOps ops) :=
  foldl_preserve (fun t d h => ordered_insert d t h)
    (fun t d h => ordered_remove t h d) ops leaf True.intro

theorem runOps_hok (ops : List Op) : HeightsOk (runOps ops) :=
  foldl_preserve (fun t d h => hok_insert d t h)
    (fun t d h => hok_remove t h d) ops leaf True.intro

theorem runOps_hok_bal (ops : List Op) :
    HeightsOk (runOps ops) ∧ Balanced (runOps ops) :=
  foldl_preserve (P := fun t => HeightsOk t ∧ Balanced t)
    (fun t d hp => ⟨hok_insert d t hp.1, (insert_bal t hp.1 hp.2 d).1⟩)
    (fun t d hp => ⟨hok_remove t hp.1 d, (remove_bal t hp.1 hp.2 d).1⟩)
    ops leaf ⟨True.intro, True.intro⟩

end SelfBalancingBinaryTree

namespace BinarySearchTree

theorem bst_foldl_preserve {P : BinarySearchTree → Prop}
    (hins : ∀ t d, P t → P (insert t d))
    (hdel : ∀ t d, P t → P (remove t d)) :
    ∀ (ops : List Op) t, P t → P (List.foldl applyOp t ops)
  | [], _, h => h
  | op :: ops, t, h => by
    show P (List.foldl applyOp (applyOp t op) ops)
    refine bst_foldl_preserve hins hdel ops _ ?_
    cases op with
    | ins k => exact hins t k h
    | del k => exact hdel t k h
    | find k => exact h

theorem bst_runOps_ordered (ops : List Op) : Ordered (runOps ops) :=
  bst_foldl_preserve (fun t d h => bst_ordered_insert d t h)
    (fun t d h => bst_ordered_remove t h d) ops leaf True.intro

theorem bst_remove_all : ∀ (rs : List Int) (t), Ordered t →
    (inorder t).Perm rs → List.foldl remove t rs = leaf
  | [], t, _, hp => (bst_inorder_eq_nil t).mp hp.eq_nil
  | d :: rs, t, ht, hp => by
    show List.foldl remove (remove t d) rs = leaf
    refine bst_remove_all rs (remove t d) (bst_ordered_remove t ht d) ?_
    rw [bst_inorder_remove t ht d]
    simpa using hp.erase d

theorem bst_inorder_inserts : ∀ (ks : List Int) (t), ks.Nodup → Ordered t →
    (∀ k ∈ ks, k ∉ inorder t) →
    Ordered (List.foldl insert t ks) ∧
      (inorder (List.foldl insert t ks)).Perm (ks ++ inorder t)
  | [], t, _, ht, _ => ⟨ht, by simp⟩
  | k :: ks, t, hnd, ht, hks => by
    have hkt : k ∉ inorder t := hks k (List.mem_cons_self _ _)
    have hins : (inorder (insert t k)).Perm (k :: inorder t) :=
      bst_inorder_insert_perm t k hkt
    have hnd2 : ks.Nodup := (List.nodup_cons.mp hnd).2
    have hkk : k ∉ ks := (List.nodup_cons.mp hnd).1
    have hks2 : ∀ k2 ∈ ks, k2 ∉ inorder (insert t k) := by
      intro k2 hk2 hc
      rcases List.mem_cons.mp (hins.mem_iff.mp hc) with rfl | hmem
      · exact hkk hk2
      · exact hks k2 (List.mem_cons_of_mem _ hk2) hmem
    obtain ⟨ho, hperm⟩ :=
      bst_inorder_inserts ks (insert t k) hnd2 (bst_ordered_insert k t ht) hks2
    refine ⟨ho, ?_⟩
    exact (hperm.trans (List.Perm.append_left ks hins)).trans List.perm_middle

theorem size_insert : ∀ t d, d ∉ inorder t → size (insert t d) = size t + 1
  | leaf, d, _ => by simp [insert, size]
  | node l x r, d, hmem => by
    have hmx : d ≠ x := fun hc => hmem (by simp [inorder, hc])
    have hml : d ∉ inorder l := fun hc => hmem (by simp [inorder, hc])
    have hmr : d ∉ inorder r := fun hc => hmem (by simp [inorder, hc])
    simp only [insert]
    rcases lt_or_gt_of_ne hmx with h1 | h1
    · rw [if_pos h1]
      show size (insert l d) + size r + 1 = size l + size r + 1 + 1
      rw [size_insert l d hml]
      omega
    · rw [if_neg (by omega : ¬ d < x), if_pos h1]
      show size l + size (insert r d) + 1 = size l + size r + 1 + 1
      rw [size_insert r d hmr]
      omega

theorem insert_graft : ∀ t d, d ∉ inorder t →
    subtreeAt t (descend t d) = some leaf ∧
      insert t d = replaceAt t (descend t d) (node leaf d leaf)
  | leaf, _, _ => ⟨rfl, rfl⟩
  | node l x r, d, hmem => by
    have hmx : d ≠ x := fun hc => hmem (by simp [inorder, hc])
    have hml : d ∉ inorder l := fun hc => hmem (by simp [inorder, hc])
    have hmr : d ∉ inorder r := fun hc => hmem (by simp [inorder, hc])
    simp only [descend, insert]
    rcases lt_or_gt_of_ne hmx with h1 | h1
    · rw [if_pos h1, if_pos h1]
      obtain ⟨ha, hb⟩ := insert_graft l d hml
      refine ⟨?_, ?_⟩
      · show subtreeAt l (descend l d) = some leaf
        exact ha
      · show node (insert l d) x r
            = node (replaceAt l (descend l d) (node leaf d leaf)) x r
        rw [hb]
    · rw [if_neg (by omega : ¬ d < x), if_pos h1,
        if_neg (by omega : ¬ d < x), if_pos h1]
      obtain ⟨ha, hb⟩ := insert_graft r d hmr
      refine ⟨?_, ?_⟩
      · show subtreeAt r (descend r d) = some leaf
        exact ha
      · show node l x (insert r d)
            = node l x (replaceAt r (descend r d) (node leaf d leaf))
        rw [hb]

end BinarySearchTree

namespace SelfBalancingBinaryTree

theorem remove_all : ∀ (rs : List Int) (t), Ordered t →
    (inorder t).Perm rs → List.foldl remove t rs = leaf
  | [], t, _, hp => (inorder_eq_nil t).mp hp.eq_nil
  | d :: rs, t, ht, hp => by
    show List.foldl remove (remove t d) rs = leaf
    refine remove_all rs (remove t d) (ordered_remove t ht d) ?_
    rw [inorder_remove t ht d]
    simpa using hp.erase d

theorem inorder_inserts : ∀ (ks : List Int) (t), ks.Nodup → Ordered t →
    (∀ k ∈ ks, k ∉ inorder t) →
    Ordered (List.foldl insert t ks) ∧
      (inorder (List.foldl insert t ks)).Perm (ks ++ inorder t)
  | [], t, _, ht, _ => ⟨ht, by simp⟩
  | k :: ks, t, hnd, ht, hks => by
    have hkt : k ∉ inorder t := hks k (List.mem_cons_self _ _)
    have hins : (inorder (insert t k)).Perm (k :: inorder t) :=
      inorder_insert_perm t k hkt
    have hnd2 : ks.Nodup := (List.nodup_cons.mp hnd).2
    have hkk : k ∉ ks := (List.nodup_cons.mp hnd).1
    have hks2 : ∀ k2 ∈ ks, k2 ∉ inorder (insert t k) := by
      intro k2 hk2 hc
      rcases List.mem_cons.mp (hins.mem_iff.mp hc) with rfl | hmem
      · exact hkk hk2
      · exact hks k2 (List.mem_cons_of_mem _ hk2) hmem
    obtain ⟨ho, hperm⟩ :=
      inorder_inserts ks (insert t k) hnd2 (ordered_insert k t ht) hks2
    refine ⟨ho, ?_⟩
    exact (hperm.trans (List.Perm.append_left ks hins)).trans List.perm_middle

end SelfBalancingBinaryTree

theorem sorted_lt_eq_of_perm {l1 l2 : List Int} (hp : l1.Perm l2)
    (h1 : l1.Sorted (· < ·)) (h2 : l2.Sorted (· < ·)) : l1 = l2 :=
  List.eq_of_perm_of_sorted hp h1 h2

theorem inorder_agree_aux : ∀ (ops : List Op) (b : BinarySearchTree)
    (s : SelfBalancingBinaryTree), b.Ordered → s.Ordered →
    b.inorder = s.inorder →
    (List.foldl BinarySearchTree.applyOp b ops).Ordered ∧
    (List.foldl SelfBalancingBinaryTree.applyOp s ops).Ordered ∧
    (List.foldl BinarySearchTree.applyOp b ops).inorder
      = (List.foldl SelfBalancingBinaryTree.applyOp s ops).inorder
  | [], b, s, hb, hs, heq => ⟨hb, hs, heq⟩
  | op :: ops, b, s, hb, hs, heq => by
    show (List.foldl BinarySearchTree.applyOp (b.applyOp op) ops).Ordered ∧ _
    cases op with
    | ins k =>
      refine inorder_agree_aux ops (b.insert k) (s.insert k)
        (BinarySearchTree.bst_ordered_insert k b hb)
        (SelfBalancingBinaryTree.ordered_insert k s hs) ?_
      by_cases hmem : k ∈ b.inorder
      · rw [BinarySearchTree.bst_inorder_insert_of_mem b hb k hmem,
          SelfBalancingBinaryTree.inorder_insert_of_mem s hs k
            (heq ▸ hmem), heq]
      · have p1 := BinarySearchTree.bst_inorder_insert_perm b k hmem
        have p2 := SelfBalancingBinaryTree.inorder_insert_perm s k
          (fun hc => hmem (heq ▸ hc))
        refine sorted_lt_eq_of_perm (p1.trans ?_)
          (BinarySearchTree.bst_sorted_inorder _
            (BinarySearchTree.bst_ordered_insert k b hb))
          (SelfBalancingBinaryTree.sorted_inorder _
            (SelfBalancingBinaryTree.ordered_insert k s hs))
        rw [heq]
        exact p2.symm
    | del k =>
      refine inorder_agree_aux ops (b.remove k) (s.remove k)
        (BinarySearchTree.bst_ordered_remove b hb k)
        (SelfBalancingBinaryTree.ordered_remove s hs k) ?_
      rw [BinarySearchTree.bst_inorder_remove b hb k,
        SelfBalancingBinaryTree.inorder_remove s hs k, heq]
    | find k => exact inorder_agree_aux ops b s hb hs heq


/-! ## Claims -/

/-- C1: for every finite sequence of insert and remove operations applied to
an initially empty tree — for both the plain `BinarySearchTree` and the
`SelfBalancingBinaryTree` — the in-order traversal of the resulting tree
yields its keys in strictly ascending order (`Sorted (· < ·)`), and hence
each key appears at most once (`Nodup`). -/
theorem claim_C1_inorder_strictly_ascending (ops : List Op) :
    (BinarySearchTree.runOps ops).inorder.Sorted (· < ·) ∧
    (BinarySearchTree.runOps ops).inorder.Nodup ∧
    (SelfBalancingBinaryTree.runOps ops).inorder.Sorted (· < ·) ∧
    (SelfBalancingBinaryTree.runOps ops).inorder.Nodup := by
  have h1 := BinarySearchTree.bst_sorted_inorder _ (BinarySearchTree.bst_runOps_ordered ops)
  have h2 := SelfBalancingBinaryTree.sorted_inorder _
    (SelfBalancingBinaryTree.runOps_ordered ops)
  exact ⟨h1, h1.nodup, h2, h2.nodup⟩

/-- C5: in every `SelfBalancingBinaryTree` reachable by public operations
from the empty tree, every node's stored height field equals
`1 + max (height left) (height right)` with an absent child counting as
height `0` (so in particular every leaf node stores height `1`). -/
theorem claim_C5_stored_heights (ops : List Op) :
    SelfBalancingBinaryTree.HeightsOk (SelfBalancingBinaryTree.runOps ops) :=
  SelfBalancingBinaryTree.runOps_hok ops

/-- C3: on a valid tree, inserting an absent key makes the in-order sequence
the sorted insertion of that key (stated as: the result is sorted and is a
permutation of the key consed onto the old sequence, which uniquely
determines it), while inserting a present key returns the tree unchanged
(hence same in-order sequence and identical stored heights) — for both
variants. -/
theorem claim_C3_insert_contract (t : BinarySearchTree)
    (u : SelfBalancingBinaryTree) (d : Int) (ht : t.Ordered)
    (hu1 : u.Ordered) (hu2 : u.HeightsOk) (hu3 : u.Balanced) :
    (d ∈ t.inorder → t.insert d = t) ∧
    (d ∉ t.inorder → (t.insert d).inorder.Perm (d :: t.inorder) ∧
      (t.insert d).inorder.Sorted (· < ·)) ∧
    (d ∈ u.inorder → u.insert d = u) ∧
    (d ∉ u.inorder → (u.insert d).inorder.Perm (d :: u.inorder) ∧
      (u.insert d).inorder.Sorted (· < ·)) := by
  refine ⟨fun hm => BinarySearchTree.bst_insert_eq_of_mem t ht d hm,
    fun hm => ⟨BinarySearchTree.bst_inorder_insert_perm t d hm,
      BinarySearchTree.bst_sorted_inorder _ (BinarySearchTree.bst_ordered_insert d t ht)⟩,
    fun hm => SelfBalancingBinaryTree.insert_eq_of_mem u hu1 hu2 hu3 d hm,
    fun hm => ⟨SelfBalancingBinaryTree.inorder_insert_perm u d hm,
      SelfBalancingBinaryTree.sorted_inorder _
        (SelfBalancingBinaryTree.ordered_insert d u hu1)⟩⟩

/-- Witness for C3 at the singleton trees holding key 1 and the key 2. -/
theorem claim_C3_insert_contract_witness :
    (BinarySearchTree.node .leaf 1 .leaf).Ordered ∧
    (SelfBalancingBinaryTree.node .leaf 1 1 .leaf).Ordered ∧
    (SelfBalancingBinaryTree.node .leaf 1 1 .leaf).HeightsOk ∧
    (SelfBalancingBinaryTree.node .leaf 1 1 .leaf).Balanced ∧
    (((2:Int) ∈ (BinarySearchTree.node .leaf 1 .leaf).inorder →
        (BinarySearchTree.node .leaf 1 .leaf).insert 2
          = BinarySearchTree.node .leaf 1 .leaf) ∧
      ((2:Int) ∉ (BinarySearchTree.node .leaf 1 .leaf).inorder →
        ((BinarySearchTree.node .leaf 1 .leaf).insert 2).inorder.Perm
            (2 :: (BinarySearchTree.node .leaf 1 .leaf).inorder) ∧
          ((BinarySearchTree.node .leaf 1 .leaf).insert 2).inorder.Sorted (· < ·)) ∧
      ((2:Int) ∈ (SelfBalancingBinaryTree.node .leaf 1 1 .leaf).inorder →
        (SelfBalancingBinaryTree.node .leaf 1 1 .leaf).insert 2
          = SelfBalancingBinaryTree.node .leaf 1 1 .leaf) ∧
      ((2:Int) ∉ (SelfBalancingBinaryTree.node .leaf 1 1 .leaf).inorder →
        ((SelfBalancingBinaryTree.node .leaf 1 1 .leaf).insert 2).inorder.Perm
            (2 :: (SelfBalancingBinaryTree.node .leaf 1 1 .leaf).inorder) ∧
          ((SelfBalancingBinaryTree.node .leaf 1 1 .leaf).insert 2).inorder.Sorted
            (· < ·))) :=
  ⟨by decide, by decide, by decide, by decide,
    claim_C3_insert_contract _ _ 2 (by decide) (by decide) (by decide) (by decide)⟩

/-- C4: on a valid tree, removing a present key deletes exactly that key
from the in-order sequence, while removing an absent key returns the tree
unchanged (identical structure and stored heights) — for both variants. -/
theorem claim_C4_remove_contract (t : BinarySearchTree)
    (u : SelfBalancingBinaryTree) (d : Int) (ht : t.Ordered)
    (hu1 : u.Ordered) (hu2 : u.HeightsOk) (hu3 : u.Balanced) :
    ((t.remove d).inorder = t.inorder.erase d) ∧
    (d ∉ t.inorder → t.remove d = t) ∧
    ((u.remove d).inorder = u.inorder.erase d) ∧
    (d ∉ u.inorder → u.remove d = u) :=
  ⟨BinarySearchTree.bst_inorder_remove t ht d,
    fun hm => BinarySearchTree.bst_remove_eq_of_not_mem t d hm,
    SelfBalancingBinaryTree.inorder_remove u hu1 d,
    fun hm => SelfBalancingBinaryTree.remove_eq_of_not_mem u hu2 hu3 d hm⟩

/-- Witness for C4 at the singleton trees holding key 1 and the key 1. -/
theorem claim_C4_remove_contract_witness :
    (BinarySearchTree.node .leaf 1 .leaf).Ordered ∧
    (SelfBalancingBinaryTree.node .leaf 1 1 .leaf).Ordered ∧
    (SelfBalancingBinaryTree.node .leaf 1 1 .leaf).HeightsOk ∧
    (SelfBalancingBinaryTree.node .leaf 1 1 .leaf).Balanced ∧
    ((((BinarySearchTree.node .leaf 1 .leaf).remove 1).inorder
        = (BinarySearchTree.node .leaf 1 .leaf).inorder.erase 1) ∧
      ((1:Int) ∉ (BinarySearchTree.node .leaf 1 .leaf).inorder →
        (BinarySearchTree.node .leaf 1 .leaf).remove 1
          = BinarySearchTree.node .leaf 1 .leaf) ∧
      (((SelfBalancingBinaryTree.node .leaf 1 1 .leaf).remove 1).inorder
        = (SelfBalancingBinaryTree.node .leaf 1 1 .leaf).inorder.erase 1) ∧
      ((1:Int) ∉ (SelfBalancingBinaryTree.node .leaf 1 1 .leaf).inorder →
        (SelfBalancingBinaryTree.node .leaf 1 1 .leaf).remove 1
          = SelfBalancingBinaryTree.node .leaf 1 1 .leaf)) :=
  ⟨by decide, by decide, by decide, by decide,
    claim_C4_remove_contract _ _ 1 (by decide) (by decide) (by decide) (by decide)⟩

/-- C7: inserting any duplicate-free finite list of keys into an empty tree
and then removing all of them, in any order (any permutation of the
inserted keys), yields the empty tree — for both variants. -/
theorem claim_C7_round_trip (ks rs : List Int) (hnd : ks.Nodup)
    (hperm : rs.Perm ks) :
    List.foldl BinarySearchTree.remove
        (List.foldl BinarySearchTree.insert BinarySearchTree.leaf ks) rs
      = BinarySearchTree.leaf ∧
    List.foldl SelfBalancingBinaryTree.remove
        (List.foldl SelfBalancingBinaryTree.insert
          SelfBalancingBinaryTree.leaf ks) rs
      = SelfBalancingBinaryTree.leaf := by
  constructor
  · obtain ⟨ho, hp⟩ := BinarySearchTree.bst_inorder_inserts ks
      BinarySearchTree.leaf hnd True.intro
      (by intro k hk hc; simp [BinarySearchTree.inorder] at hc)
    refine BinarySearchTree.bst_remove_all rs _ ho ?_
    exact (hp.trans (by simp [BinarySearchTree.inorder])).trans hperm.symm
  · obtain ⟨ho, hp⟩ := SelfBalancingBinaryTree.inorder_inserts ks
      SelfBalancingBinaryTree.leaf hnd True.intro
      (by intro k hk hc; simp [SelfBalancingBinaryTree.inorder] at hc)
    refine SelfBalancingBinaryTree.remove_all rs _ ho ?_
    exact (hp.trans (by simp [SelfBalancingBinaryTree.inorder])).trans hperm.symm

/-- Witness for C7 with keys `[1, 2]` removed in order `[2, 1]`. -/
theorem claim_C7_round_trip_witness :
    ([1, 2] : List Int).Nodup ∧ ([2, 1] : List Int).Perm [1, 2] ∧
    (List.foldl BinarySearchTree.remove
        (List.foldl BinarySearchTree.insert BinarySearchTree.leaf [1, 2]) [2, 1]
      = BinarySearchTree.leaf ∧
    List.foldl SelfBalancingBinaryTree.remove
        (List.foldl SelfBalancingBinaryTree.insert
          SelfBalancingBinaryTree.leaf [1, 2]) [2, 1]
      = SelfBalancingBinaryTree.leaf) :=
  ⟨by decide, by decide, claim_C7_round_trip [1, 2] [2, 1] (by decide) (by decide)⟩

/-- C9: after any finite sequence of insert, remove and search operations
from the empty tree, the plain `BinarySearchTree` and the
`SelfBalancingBinaryTree` have identical in-order key sequences (this holds
after every prefix, each prefix being itself such a sequence), and every
search returns the same result in both — `none`, or `some k` for the
searched key `k`. -/
theorem claim_C9_observable_agreement (ops : List Op) (k : Int) :
    (BinarySearchTree.runOps ops).inorder
      = (SelfBalancingBinaryTree.runOps ops).inorder ∧
    (BinarySearchTree.runOps ops).search k
      = (SelfBalancingBinaryTree.runOps ops).search k ∧
    ((BinarySearchTree.runOps ops).search k = none ∨
      (BinarySearchTree.runOps ops).search k = some k) := by
  obtain ⟨hb, hs, heq⟩ := inorder_agree_aux ops BinarySearchTree.leaf
    SelfBalancingBinaryTree.leaf True.intro True.intro rfl
  simp only [BinarySearchTree.runOps, SelfBalancingBinaryTree.runOps]
  refine ⟨heq, ?_, ?_⟩
  · rw [BinarySearchTree.bst_search_eq _ hb k,
      SelfBalancingBinaryTree.search_eq _ hs k, heq]
  · rw [BinarySearchTree.bst_search_eq _ hb k]
    split_ifs
    · exact Or.inr rfl
    · exact Or.inl rfl

/-- C10: on the plain `BinarySearchTree`, inserting an absent key grafts a
single fresh leaf node holding that key at the position reached by the
comparison descent — the subtree there was empty, the result is exactly the
old tree with that empty slot replaced (so every existing node keeps its
key and its off-path children), and the size grows by one. -/
theorem claim_C10_insert_frame (t : BinarySearchTree) (d : Int)
    (h : d ∉ t.inorder) :
    t.subtreeAt (t.descend d) = some .leaf ∧
    t.insert d = t.replaceAt (t.descend d) (.node .leaf d .leaf) ∧
    (t.insert d).size = t.size + 1 := by
  obtain ⟨h1, h2⟩ := BinarySearchTree.insert_graft t d h
  exact ⟨h1, h2, BinarySearchTree.size_insert t d h⟩

/-- Witness for C10 at the singleton tree holding key 1 and the key 2. -/
theorem claim_C10_insert_frame_witness :
    ((2:Int) ∉ (BinarySearchTree.node .leaf 1 .leaf).inorder) ∧
    ((BinarySearchTree.node .leaf 1 .leaf).subtreeAt
        ((BinarySearchTree.node .leaf 1 .leaf).descend 2) = some .leaf ∧
      (BinarySearchTree.node .leaf 1 .leaf).insert 2
        = (BinarySearchTree.node .leaf 1 .leaf).replaceAt
            ((BinarySearchTree.node .leaf 1 .leaf).descend 2)
            (.node .leaf 2 .leaf) ∧
      ((BinarySearchTree.node .leaf 1 .leaf).insert 2).size
        = (BinarySearchTree.node .leaf 1 .leaf).size + 1) :=
  ⟨by decide, claim_C10_insert_frame _ 2 (by decide)⟩

/-- C8 counterexample: in the scenario of the spec, the seven insertions
30, 20, 40, 10, 25, 35, 50 already make 30 the root, and the subsequent
insertion of 5 performs zero rotations, not one — refuting "the root
becomes 30 after one rotation triggered by inserting 5". -/
theorem claim_C8_counterexample :
    (SelfBalancingBinaryTree.insertC
        (SelfBalancingBinaryTree.runOps
          [.ins 30, .ins 20, .ins 40, .ins 10, .ins 25, .ins 35, .ins 50])
        5).2 = 0 ∧
    ¬(SelfBalancingBinaryTree.insertC
        (SelfBalancingBinaryTree.runOps
          [.ins 30, .ins 20, .ins 40, .ins 10, .ins 25, .ins 35, .ins 50])
        5).2 = 1 ∧
    (SelfBalancingBinaryTree.runOps
        [.ins 30, .ins 20, .ins 40, .ins 10, .ins 25, .ins 35, .ins 50]).rootData
      = some 30 := by decide

/-- C8 (amended): inserting 30, 20, 40, 10, 25, 35, 50, and then 5 into an
empty `SelfBalancingBinaryTree` yields in-order 5,10,20,25,30,35,40,50 with
the tree balanced and correct stored heights, and the root is 30 — however
the root is already 30 before inserting 5, and that insertion triggers no
rotation (the seven-key tree is perfectly balanced). -/
theorem claim_C8_scenario :
    (SelfBalancingBinaryTree.runOps
        [.ins 30, .ins 20, .ins 40, .ins 10, .ins 25, .ins 35, .ins 50,
          .ins 5]).inorder = [5, 10, 20, 25, 30, 35, 40, 50] ∧
    SelfBalancingBinaryTree.BalancedReal
      (SelfBalancingBinaryTree.runOps
        [.ins 30, .ins 20, .ins 40, .ins 10, .ins 25, .ins 35, .ins 50,
          .ins 5]) ∧
    SelfBalancingBinaryTree.HeightsOk
      (SelfBalancingBinaryTree.runOps
        [.ins 30, .ins 20, .ins 40, .ins 10, .ins 25, .ins 35, .ins 50,
          .ins 5]) ∧
    (SelfBalancingBinaryTree.runOps
        [.ins 30, .ins 20, .ins 40, .ins 10, .ins 25, .ins 35, .ins 50,
          .ins 5]).rootData = some 30 ∧
    (SelfBalancingBinaryTree.runOps
        [.ins 30, .ins 20, .ins 40, .ins 10, .ins 25, .ins 35, .ins 50]).rootData
      = some 30 ∧
    (SelfBalancingBinaryTree.insertC
        (SelfBalancingBinaryTree.runOps
          [.ins 30, .ins 20, .ins 40, .ins 10, .ins 25, .ins 35, .ins 50])
        5).2 = 0 := by decide

/-- C2: after every public insert or remove operation completes, every node
of the `SelfBalancingBinaryTree` reachable from the empty tree satisfies
the AVL balance invariant: the structural heights of its two subtrees
differ by at most one. -/
theorem claim_C2_balance_invariant (ops : List Op) :
    SelfBalancingBinaryTree.BalancedReal (SelfBalancingBinaryTree.runOps ops) := by
  obtain ⟨h1, h2⟩ := SelfBalancingBinaryTree.runOps_hok_bal ops
  exact SelfBalancingBinaryTree.balancedReal_of _ h1 h2

/-- C6: on every `SelfBalancingBinaryTree` reachable from the empty tree,
the guarded embeddings of insert and remove — in which each rotation
primitive fails if its required child (`node->left` for `rotate_right`,
`node->right` for `rotate_left`) is absent — succeed and agree with the
unguarded operations.  Hence the rotation primitives' fatal precondition
violation is unreachable under the balance-factor gating of the dispatch. -/
theorem claim_C6_rotation_preconditions_unreachable (ops : List Op) (d : Int) :
    SelfBalancingBinaryTree.insertChk (SelfBalancingBinaryTree.runOps ops) d
      = some (SelfBalancingBinaryTree.insert
          (SelfBalancingBinaryTree.runOps ops) d) ∧
    SelfBalancingBinaryTree.removeChk (SelfBalancingBinaryTree.runOps ops) d
      = some (SelfBalancingBinaryTree.remove
          (SelfBalancingBinaryTree.runOps ops) d) := by
  obtain ⟨h1, h2⟩ := SelfBalancingBinaryTree.runOps_hok_bal ops
  exact ⟨SelfBalancingBinaryTree.insertChk_eq _ h1 h2 d,
    SelfBalancingBinaryTree.removeChk_eq _ h1 d⟩
